import Mathlib

/-
Verification development for the Household Food Basket PDF scraper
(src/scraper.py).  The core under verification is the table-location
logic: the title regex `TARGET_TITLE_REGEX`, the text normalizer `_norm`,
the header-signature test, and the two-pass search in
`extract_target_table`.

Modelling conventions:
- Python strings are `String`/`List Char`; a nullable string is `Option String`.
- The regex engine of the `re` module is shallow-embedded as a small
  regular-expression AST `RE` with Brzozowski-derivative matching; the
  concrete pattern `TARGET_TITLE_REGEX` is transcribed node by node.
  Character classes model the ASCII behaviour of the Python classes
  (whitespace, digits, letters, IGNORECASE folding).
- `page.extract_text()` returning `None` is `Option.none`; the
  `page_text or ""` idiom is `Option.getD "" `.
- `extract_target_table` returns its table and prints the 1-based page
  number on success, and raises one of two distinguishable RuntimeErrors
  on failure; its observable outcome is modelled by `LocateResult`.
-/

namespace Scraper

/-- ASCII whitespace, modelling the whitespace class of the Python `re`
module (space, tab, newline, carriage return, vertical tab, form feed)
as used in `TARGET_TITLE_REGEX` and in the `_norm` substitution. -/
def isSpaceB (c : Char) : Bool :=
  c == ' ' || c == '\t' || c == '\n' || c == '\r' || c == '\x0b' || c == '\x0c'

/-- ASCII decimal digit, modelling the digit class in `TARGET_TITLE_REGEX`. -/
def digitB (c : Char) : Bool :=
  '0' ≤ c && c ≤ '9'

/-- ASCII letter; models the class written A to Z in `TARGET_TITLE_REGEX`,
which under `re.IGNORECASE` accepts both cases. -/
def isAlphaB (c : Char) : Bool :=
  ('A' ≤ c && c ≤ 'Z') || ('a' ≤ c && c ≤ 'z')

/-- ASCII lowercasing, modelling `str.lower` and the IGNORECASE folding
of the Python regex engine on the ASCII range. -/
def lowerA : Char → Char
  | 'A' => 'a' | 'B' => 'b' | 'C' => 'c' | 'D' => 'd' | 'E' => 'e'
  | 'F' => 'f' | 'G' => 'g' | 'H' => 'h' | 'I' => 'i' | 'J' => 'j'
  | 'K' => 'k' | 'L' => 'l' | 'M' => 'm' | 'N' => 'n' | 'O' => 'o'
  | 'P' => 'p' | 'Q' => 'q' | 'R' => 'r' | 'S' => 's' | 'T' => 't'
  | 'U' => 'u' | 'V' => 'v' | 'W' => 'w' | 'X' => 'x' | 'Y' => 'y'
  | 'Z' => 'z'
  | c => c

/-- One step of whitespace-run collapsing.  The flag records whether the
previous character was whitespace, in which case further whitespace is
dropped; otherwise a whitespace character is emitted as a single space.
Together with `collapse` this models the substitution in `_norm` that
replaces every whitespace run by one space. -/
def collapseAux : Bool → List Char → List Char
  | _, [] => []
  | prevWs, c :: rest =>
    if isSpaceB c then
      if prevWs then collapseAux true rest
      else ' ' :: collapseAux true rest
    else c :: collapseAux false rest

/-- Replace every maximal whitespace run by a single space (the
substitution step of `_norm`). -/
def collapse (l : List Char) : List Char := collapseAux false l

/-- Remove leading and trailing whitespace (the `strip()` step of `_norm`). -/
def stripWs (l : List Char) : List Char :=
  ((l.dropWhile isSpaceB).reverse.dropWhile isSpaceB).reverse

/-- Character-list form of `_norm`: collapse whitespace runs, strip the
ends, lowercase. -/
def normL (l : List Char) : List Char :=
  (stripWs (collapse l)).map lowerA

/-- The normalizer `_norm` of scraper.py: `None` becomes the empty
string, otherwise whitespace runs are collapsed to single spaces, the
ends are stripped and the result is lowercased. -/
def norm : Option String → String
  | none => ""
  | some s => String.mk (normL s.data)

/- ----------------------------------------------------------------
Regular expressions: a shallow embedding of the fragment of Python
regex syntax used by TARGET_TITLE_REGEX.  Kleene star is only ever
applied to single character classes in that pattern, which the AST
reflects (`starCls`).
---------------------------------------------------------------- -/

/-- Regular-expression AST covering the constructs appearing in
`TARGET_TITLE_REGEX`: the empty language, the empty string, a single
character from a class, zero-or-more characters from a class,
concatenation and alternation. -/
inductive RE where
  | emp : RE
  | eps : RE
  | cls (p : Char → Bool) : RE
  | starCls (p : Char → Bool) : RE
  | seq (a b : RE) : RE
  | alt (a b : RE) : RE

/-- Does the regex accept the empty string? -/
def nullable : RE → Bool
  | .emp => false
  | .eps => true
  | .cls _ => false
  | .starCls _ => true
  | .seq a b => nullable a && nullable b
  | .alt a b => nullable a || nullable b

/-- Recognize the failure regex, used to prune dead branches of
derivatives. -/
def isEmp : RE → Bool
  | .emp => true
  | _ => false

/-- Alternation that prunes failure branches. -/
def altS (a b : RE) : RE :=
  if isEmp a then b else if isEmp b then a else .alt a b

/-- Concatenation that collapses to failure when either side fails. -/
def seqS (a b : RE) : RE :=
  if isEmp a || isEmp b then .emp else .seq a b

/-- Brzozowski derivative of a regex by one character. -/
def deriv (r : RE) (c : Char) : RE :=
  match r with
  | .emp => .emp
  | .eps => .emp
  | .cls p => if p c then .eps else .emp
  | .starCls p => if p c then .starCls p else .emp
  | .seq a b =>
    if nullable a then altS (seqS (deriv a c) b) (deriv b c)
    else seqS (deriv a c) b
  | .alt a b => altS (deriv a c) (deriv b c)

/-- Does some prefix of the character list match the regex? -/
def prefixB (r : RE) : List Char → Bool
  | [] => nullable r
  | c :: l => nullable r || prefixB (deriv r c) l

/-- Unanchored search, modelling `re.Pattern.search` returning a match
anywhere in the text: does some substring match the regex? -/
def searchList (r : RE) : List Char → Bool
  | [] => nullable r
  | c :: l => prefixB r (c :: l) || searchList r l

/-- Single literal character. -/
def clsChar (c : Char) : RE := .cls (fun x => x == c)

/-- Case-insensitive literal character, modelling a letter in a pattern
compiled with `re.IGNORECASE`. -/
def litCI (c : Char) : RE := .cls (fun x => lowerA x == lowerA c)

/-- Case-insensitive literal word. -/
def strCI : List Char → RE
  | [] => .eps
  | c :: cs => .seq (litCI c) (strCI cs)

/-- One or more whitespace characters. -/
def sP : RE := .seq (.cls isSpaceB) (.starCls isSpaceB)

/-- Zero or more whitespace characters. -/
def sS : RE := .starCls isSpaceB

/-- Optional group. -/
def optR (r : RE) : RE := .alt .eps r

/-- The optional numeric section marker of `TARGET_TITLE_REGEX`:
one or more digits, a dot, optional whitespace. -/
def secNum : RE :=
  .seq (.seq (.cls digitB) (.starCls digitB)) (.seq (clsChar '.') sS)

/-- The optional month-plus-year token of `TARGET_TITLE_REGEX`:
letters, whitespace, exactly four digits, whitespace. -/
def monthYear : RE :=
  .seq (.seq (.cls isAlphaB) (.starCls isAlphaB))
    (.seq sP
      (.seq (.seq (.cls digitB) (.seq (.cls digitB) (.seq (.cls digitB) (.cls digitB))))
        sP))

/-- The fixed core of `TARGET_TITLE_REGEX`: the words Household, Food,
Basket separated by whitespace, a colon with optional surrounding
whitespace, Per, area, a comma with optional surrounding whitespace,
compared; all case-insensitive. -/
def corePhrase : RE :=
  .seq (strCI "Household".data)
    (.seq sP
      (.seq (strCI "Food".data)
        (.seq sP
          (.seq (strCI "Basket".data)
            (.seq sS
              (.seq (clsChar ':')
                (.seq sS
                  (.seq (strCI "Per".data)
                    (.seq sP
                      (.seq (strCI "area".data)
                        (.seq sS
                          (.seq (clsChar ',')
                            (.seq sS (strCI "compared".data))))))))))))))

/-- The full `TARGET_TITLE_REGEX` of scraper.py: optional section
number, then optional month-plus-year token, then the core phrase. -/
def TARGET_TITLE_REGEX : RE :=
  .seq (optR secNum) (.seq (optR monthYear) corePhrase)

/-- The matcher `_title_matches` of scraper.py: unanchored search of
`TARGET_TITLE_REGEX` over the page text, with `None` treated as the
empty string. -/
def title_matches (t : Option String) : Bool :=
  searchList TARGET_TITLE_REGEX (t.getD "").data

/-- Search with only the fixed core phrase of the title pattern;
the comparison point for the claim that the optional prefix groups of
`TARGET_TITLE_REGEX` never influence the verdict. -/
def coreTitleMatches (t : Option String) : Bool :=
  searchList corePhrase (t.getD "").data

/- ----------------------------------------------------------------
Header-signature matching and the two-pass locator of
extract_target_table.
---------------------------------------------------------------- -/

/-- A extracted table: rows of nullable cell strings, as produced by
`page.extract_tables()`. -/
abbrev Table := List (List (Option String))

/-- The required normalized header labels `EXPECTED_COLUMNS` of
scraper.py. -/
def EXPECTED_COLUMNS : List String :=
  ["foods tracked", "quantity tracked", "joburg", "durban", "cape town"]

/-- The normalized, non-empty header cells of a row: the comprehension
over `table[0]` in `extract_target_table` that normalizes each cell and
keeps the truthy results. -/
def headerNorm (row : List (Option String)) : List String :=
  row.filterMap (fun cell =>
    let n := norm cell
    if n = "" then none else some n)

/-- The header-signature test applied to each candidate table inside
`extract_target_table`: skip an empty table or an empty first row, and
otherwise require every expected column label to occur among the
normalized header cells. -/
def headerMatches (t : Table) : Bool :=
  match t with
  | [] => false
  | row0 :: _ =>
    if row0.isEmpty then false
    else EXPECTED_COLUMNS.all (fun e => decide (e ∈ headerNorm row0))

/-- One page as consumed by `extract_target_table`: the extracted text
(possibly `None`) and the list of candidate tables. -/
structure Page where
  text : Option String
  tables : List Table

/-- Observable outcome of `extract_target_table`: the returned table
together with the page number reported for it, or one of the two
distinguishable failure RuntimeErrors, the first carrying the title-hit
page list embedded in its message. -/
inductive LocateResult where
  | found (table : Table) (page : Nat)
  | titleFoundNoMatchingTable (hits : List Nat)
  | noTitleNoTable
deriving DecidableEq

/-- Pass 1 of `extract_target_table`, starting at page number `n`:
on each title-hit page record the page number and look for the first
header-matching table; stops at the first hit, otherwise returns the
accumulated title-hit pages. -/
def pass1 : List Page → Nat → List Nat × Option (Table × Nat)
  | [], _ => ([], none)
  | pg :: rest, n =>
    if title_matches pg.text then
      match pg.tables.find? headerMatches with
      | some t => ([n], some (t, n))
      | none =>
        let r := pass1 rest (n + 1)
        (n :: r.1, r.2)
    else pass1 rest (n + 1)

/-- Pass 2 of `extract_target_table`, starting at page number `n`:
scan every page for the first header-matching table regardless of the
page text. -/
def pass2 : List Page → Nat → Option (Table × Nat)
  | [], _ => none
  | pg :: rest, n =>
    match pg.tables.find? headerMatches with
    | some t => some (t, n)
    | none => pass2 rest (n + 1)

/-- The locator `extract_target_table` of scraper.py over an already
rendered page sequence: Pass 1, then Pass 2, then failure
classification by emptiness of the title-hit list. -/
def extract_target_table (pages : List Page) : LocateResult :=
  let r := pass1 pages 1
  match r.2 with
  | some (t, n) => .found t n
  | none =>
    match pass2 pages 1 with
    | some (t, n) => .found t n
    | none =>
      if r.1.isEmpty then .noTitleNoTable
      else .titleFoundNoMatchingTable r.1

/-- The 1-based page numbers whose text matches the title pattern,
starting the count at `n`. -/
def titleHits : List Page → Nat → List Nat
  | [], _ => []
  | pg :: rest, n =>
    if title_matches pg.text then n :: titleHits rest (n + 1)
    else titleHits rest (n + 1)

/- ----------------------------------------------------------------
Spec-side definitions used to compare the implemented title matcher
with the wording of the specification.
---------------------------------------------------------------- -/

/-- ASCII punctuation: printable, neither letter nor digit nor space. -/
def isPunctB (c : Char) : Bool :=
  (33 ≤ c.toNat && c.toNat ≤ 126) && !(isAlphaB c) && !(digitB c)

/-- Zero or more whitespace or punctuation characters. -/
def wsPunct : RE := .starCls (fun c => isSpaceB c || isPunctB c)

/-- Modelled from the spec: the title contract as the specification
states it, namely that ignoring case the text contains the phrase
household food basket followed, with only whitespace or punctuation
intervening, by per area and then compared. -/
def claimedTitlePattern : RE :=
  .seq (strCI "household".data)
    (.seq sP
      (.seq (strCI "food".data)
        (.seq sP
          (.seq (strCI "basket".data)
            (.seq wsPunct
              (.seq (strCI "per".data)
                (.seq sP
                  (.seq (strCI "area".data)
                    (.seq wsPunct (strCI "compared".data))))))))))

/-- Modelled from the spec: boolean form of the claimed title contract. -/
def claimedTitleMatches (t : Option String) : Bool :=
  searchList claimedTitlePattern (t.getD "").data

/-- The amended title contract: as the claimed contract, but the
intervening punctuation is exactly a colon after basket and a comma
after area, each with optional surrounding whitespace. -/
def amendedTitlePattern : RE :=
  .seq (strCI "household".data)
    (.seq sP
      (.seq (strCI "food".data)
        (.seq sP
          (.seq (strCI "basket".data)
            (.seq sS
              (.seq (clsChar ':')
                (.seq sS
                  (.seq (strCI "per".data)
                    (.seq sP
                      (.seq (strCI "area".data)
                        (.seq sS
                          (.seq (clsChar ',')
                            (.seq sS (strCI "compared".data))))))))))))))

/-- Boolean form of the amended title contract. -/
def amendedTitleMatches (t : Option String) : Bool :=
  searchList amendedTitlePattern (t.getD "").data

/- ----------------------------------------------------------------
Relational semantics of the regex fragment, used to prove the
derivative matcher correct and to reason about searches.
---------------------------------------------------------------- -/

/-- Declarative matching relation for the regex AST. -/
inductive Matches : RE → List Char → Prop where
  | eps : Matches .eps []
  | cls {p : Char → Bool} {c : Char} : p c = true → Matches (.cls p) [c]
  | starNil {p : Char → Bool} : Matches (.starCls p) []
  | starCons {p : Char → Bool} {c : Char} {l : List Char} :
      p c = true → Matches (.starCls p) l → Matches (.starCls p) (c :: l)
  | seq {a b : RE} {l1 l2 : List Char} :
      Matches a l1 → Matches b l2 → Matches (.seq a b) (l1 ++ l2)
  | altL {a b : RE} {l : List Char} : Matches a l → Matches (.alt a b) l
  | altR {a b : RE} {l : List Char} : Matches b l → Matches (.alt a b) l

/-- Declarative unanchored search: some substring matches. -/
def SearchP (r : RE) (l : List Char) : Prop :=
  ∃ u m v, l = u ++ m ++ v ∧ Matches r m

/-- All characters of the list are whitespace. -/
def WsRun (l : List Char) : Prop := ∀ c ∈ l, isSpaceB c = true

/-- The list is a case-insensitive occurrence of the given word:
lowercasing it yields the word. -/
def CIw (l w : List Char) : Prop := l.map lowerA = w

/-- The list is empty or starts with a non-whitespace character. -/
def HeadNonWs : List Char → Prop
  | [] => True
  | c :: _ => isSpaceB c = false

/-- All characters of the list are non-whitespace. -/
def NonWsRun (l : List Char) : Prop := ∀ c ∈ l, isSpaceB c = false

/-- Flag threading for `collapseAux` across an append: whether the last
character of the list is whitespace, defaulting to the given flag for
the empty list. -/
def endsWs (b : Bool) (l : List Char) : Bool :=
  l.foldl (fun _ c => isSpaceB c) b

/-- Explicit shape of a string matched by the core title phrase:
the three leading words separated by whitespace runs, a colon and a
comma each with optional whitespace around them, and the trailing
words, everything case-insensitive. -/
def PhraseM (m : List Char) : Prop :=
  ∃ hh w1 ff w2 bb w3 w4 pp w5 aa w6 w7 cc : List Char,
    m = hh ++ w1 ++ ff ++ w2 ++ bb ++ w3 ++ ':' :: (w4 ++ pp ++ w5 ++ aa ++ w6 ++ ',' :: (w7 ++ cc)) ∧
    CIw hh "household".data ∧ WsRun w1 ∧ w1 ≠ [] ∧
    CIw ff "food".data ∧ WsRun w2 ∧ w2 ≠ [] ∧
    CIw bb "basket".data ∧ WsRun w3 ∧ WsRun w4 ∧
    CIw pp "per".data ∧ WsRun w5 ∧ w5 ≠ [] ∧
    CIw aa "area".data ∧ WsRun w6 ∧ WsRun w7 ∧
    CIw cc "compared".data

/-- A text contains an occurrence of the core title phrase. -/
def ContainsPhrase (l : List Char) : Prop :=
  ∃ u m v, l = u ++ m ++ v ∧ PhraseM m

/-- A segment of a text, for relating a text to its
whitespace-collapsed form: either a single non-whitespace character or
a non-empty whitespace run. -/
def IsSeg (s : List Char) : Prop :=
  (∃ c, isSpaceB c = false ∧ s = [c]) ∨ (s ≠ [] ∧ WsRun s)

/-- The single character a segment contributes to the collapsed text. -/
def segRep (s : List Char) : Char :=
  match s with
  | [] => ' '
  | c :: _ => if isSpaceB c then ' ' else c

instance (l : List Char) : Decidable (WsRun l) :=
  List.decidableBAll _ l

instance (l : List Char) : Decidable (NonWsRun l) :=
  List.decidableBAll _ l

instance : (l : List Char) → Decidable (HeadNonWs l)
  | [] => .isTrue trivial
  | _ :: _ => inferInstanceAs (Decidable (_ = false))

/-- The text is in whitespace-collapsed form: every whitespace
character is a single space with a non-whitespace successor (or at the
very end). -/
def Collapsed : List Char → Prop
  | [] => True
  | [c] => isSpaceB c = true → c = ' '
  | c :: d :: rest =>
    (isSpaceB c = true → (c = ' ' ∧ isSpaceB d = false)) ∧ Collapsed (d :: rest)

/- ----------------------------------------------------------------
Character-level lemmas.
---------------------------------------------------------------- -/

theorem lowerA_cases (c : Char) :
    (('A' ≤ c ∧ c ≤ 'Z') ∧ 'a' ≤ lowerA c ∧ lowerA c ≤ 'z') ∨ lowerA c = c := by
  unfold lowerA
  split <;> first | (left; decide) | (right; rfl)

theorem lowerA_of_not_upper {c : Char} (h : ¬ ('A' ≤ c ∧ c ≤ 'Z')) : lowerA c = c := by
  unfold lowerA
  split <;> first | (exact absurd (by decide) h) | rfl

theorem isSpaceB_eq_false_of_ge {c : Char} (h : '!' ≤ c) : isSpaceB c = false := by
  simp only [isSpaceB, Bool.or_eq_false_iff, beq_eq_false_iff_ne, ne_eq]
  refine ⟨⟨⟨⟨⟨?_, ?_⟩, ?_⟩, ?_⟩, ?_⟩, ?_⟩ <;> (rintro rfl; exact absurd h (by decide))

theorem lowerA_lowerA (c : Char) : lowerA (lowerA c) = lowerA c := by
  rcases lowerA_cases c with ⟨_, h1, h2⟩ | h
  · exact lowerA_of_not_upper (by rintro ⟨_, h4⟩; exact absurd (le_trans h1 h4) (by decide))
  · rw [h]; exact h

theorem isSpaceB_lowerA (c : Char) : isSpaceB (lowerA c) = isSpaceB c := by
  rcases lowerA_cases c with ⟨⟨h1, _⟩, h2, _⟩ | h
  · rw [isSpaceB_eq_false_of_ge (le_trans (by decide) h1),
      isSpaceB_eq_false_of_ge (le_trans (by decide) h2)]
  · rw [h]

theorem lowerA_eq_colon {c : Char} (h : lowerA c = ':') : c = ':' := by
  unfold lowerA at h
  split at h <;> simp_all

theorem lowerA_eq_comma {c : Char} (h : lowerA c = ',') : c = ',' := by
  unfold lowerA at h
  split at h <;> simp_all

theorem bool_eq_of_true_iff {a b : Bool} (h : a = true ↔ b = true) : a = b := by
  cases a <;> cases b <;> simp_all

/- ----------------------------------------------------------------
Correctness of the derivative matcher against the declarative
semantics.
---------------------------------------------------------------- -/

theorem matches_emp_iff {l : List Char} : Matches .emp l ↔ False := by
  constructor
  · intro h; cases h
  · intro h; exact h.elim

theorem matches_eps_iff {l : List Char} : Matches .eps l ↔ l = [] := by
  constructor
  · intro h; cases h; rfl
  · intro h; subst h; exact .eps

theorem matches_cls_iff {p : Char → Bool} {l : List Char} :
    Matches (.cls p) l ↔ ∃ c, l = [c] ∧ p c = true := by
  constructor
  · intro h; cases h with
    | cls hp => exact ⟨_, rfl, hp⟩
  · rintro ⟨c, hl, hp⟩; subst hl; exact .cls hp

theorem matches_star_iff {p : Char → Bool} {l : List Char} :
    Matches (.starCls p) l ↔ ∀ c ∈ l, p c = true := by
  constructor
  · intro h
    induction l with
    | nil => simp
    | cons c t ih =>
      cases h with
      | starCons hp ht =>
        intro d hd
        rcases List.mem_cons.mp hd with h1 | h1
        · exact h1 ▸ hp
        · exact ih ht d h1
  · intro h
    induction l with
    | nil => exact .starNil
    | cons c t ih =>
      exact .starCons (h c (by simp)) (ih fun d hd => h d (List.mem_cons_of_mem _ hd))

theorem matches_seq_iff {a b : RE} {l : List Char} :
    Matches (.seq a b) l ↔ ∃ l1 l2, l = l1 ++ l2 ∧ Matches a l1 ∧ Matches b l2 := by
  constructor
  · intro h; cases h with
    | seq h1 h2 => exact ⟨_, _, rfl, h1, h2⟩
  · rintro ⟨l1, l2, hl, h1, h2⟩; subst hl; exact .seq h1 h2

theorem matches_alt_iff {a b : RE} {l : List Char} :
    Matches (.alt a b) l ↔ Matches a l ∨ Matches b l := by
  constructor
  · intro h; cases h with
    | altL h => exact Or.inl h
    | altR h => exact Or.inr h
  · rintro (h | h)
    · exact .altL h
    · exact .altR h

theorem isEmp_eq {r : RE} (h : isEmp r = true) : r = .emp := by
  cases r <;> first | rfl | exact absurd h (by simp [isEmp])

theorem matches_altS {a b : RE} {l : List Char} :
    Matches (altS a b) l ↔ (Matches a l ∨ Matches b l) := by
  unfold altS
  split
  · next h => rw [isEmp_eq h]; simp [matches_emp_iff]
  · split
    · next h => rw [isEmp_eq h]; simp [matches_emp_iff]
    · exact matches_alt_iff

theorem matches_seqS {a b : RE} {l : List Char} :
    Matches (seqS a b) l ↔ Matches (.seq a b) l := by
  unfold seqS
  split
  · next h =>
    simp only [matches_emp_iff, false_iff]
    intro hseq
    rcases matches_seq_iff.mp hseq with ⟨l1, l2, _, h1, h2⟩
    rw [Bool.or_eq_true] at h
    rcases h with h3 | h3
    · rw [isEmp_eq h3] at h1; exact (matches_emp_iff.mp h1)
    · rw [isEmp_eq h3] at h2; exact (matches_emp_iff.mp h2)
  · exact Iff.rfl

theorem nullable_iff {r : RE} : nullable r = true ↔ Matches r [] := by
  induction r with
  | emp => simp [nullable, matches_emp_iff]
  | eps => simp [nullable, matches_eps_iff]
  | cls p => simp [nullable, matches_cls_iff]
  | starCls p => simp [nullable, matches_star_iff]
  | seq a b iha ihb =>
    rw [nullable, Bool.and_eq_true, iha, ihb]
    constructor
    · rintro ⟨h1, h2⟩; exact Matches.seq h1 h2
    · intro h
      rcases matches_seq_iff.mp h with ⟨l1, l2, hl, h1, h2⟩
      rcases List.append_eq_nil.mp hl.symm with ⟨e1, e2⟩
      exact ⟨e1 ▸ h1, e2 ▸ h2⟩
  | alt a b iha ihb =>
    rw [nullable, Bool.or_eq_true, iha, ihb, matches_alt_iff]

theorem deriv_iff {r : RE} {c : Char} {l : List Char} :
    Matches (deriv r c) l ↔ Matches r (c :: l) := by
  induction r generalizing l with
  | emp => simp [deriv, matches_emp_iff]
  | eps =>
    simp only [deriv, matches_emp_iff, matches_eps_iff, false_iff]
    simp
  | cls p =>
    cases hp : p c with
    | true =>
      have hd : deriv (.cls p) c = .eps := by simp [deriv, hp]
      rw [hd, matches_eps_iff, matches_cls_iff]
      constructor
      · intro h; exact ⟨c, by simp [h], hp⟩
      · rintro ⟨d, hd2, _⟩
        injection hd2 with h1 h2
    | false =>
      have hd : deriv (.cls p) c = .emp := by simp [deriv, hp]
      rw [hd, matches_emp_iff]
      simp only [false_iff]
      intro h
      rcases matches_cls_iff.mp h with ⟨d, hd2, hpd⟩
      injection hd2 with h1 h2
      rw [h1, hpd] at hp
      exact absurd hp (by simp)
  | starCls p =>
    cases hp : p c with
    | true =>
      have hd : deriv (.starCls p) c = .starCls p := by simp [deriv, hp]
      rw [hd, matches_star_iff, matches_star_iff]
      simp [hp]
    | false =>
      have hd : deriv (.starCls p) c = .emp := by simp [deriv, hp]
      rw [hd, matches_emp_iff]
      simp only [false_iff]
      intro h
      have := matches_star_iff.mp h c (by simp)
      rw [hp] at this
      exact absurd this (by simp)
  | seq a b iha ihb =>
    rw [deriv]
    by_cases hn : nullable a = true
    · rw [if_pos hn, matches_altS, matches_seqS, matches_seq_iff,
        matches_seq_iff (l := c :: l)]
      constructor
      · rintro (⟨l1, l2, hl, h1, h2⟩ | hb)
        · exact ⟨c :: l1, l2, by simp [hl], iha.mp h1, h2⟩
        · exact ⟨[], c :: l, rfl, nullable_iff.mp hn, ihb.mp hb⟩
      · rintro ⟨l1, l2, hl, h1, h2⟩
        cases l1 with
        | nil =>
          right
          simp only [List.nil_append] at hl
          exact ihb.mpr (hl ▸ h2)
        | cons d l1 =>
          left
          simp only [List.cons_append] at hl
          injection hl with hcd hl2
          exact ⟨l1, l2, hl2, iha.mpr (hcd ▸ h1), h2⟩
    · rw [if_neg hn, matches_seqS, matches_seq_iff, matches_seq_iff (l := c :: l)]
      constructor
      · rintro ⟨l1, l2, hl, h1, h2⟩
        exact ⟨c :: l1, l2, by simp [hl], iha.mp h1, h2⟩
      · rintro ⟨l1, l2, hl, h1, h2⟩
        cases l1 with
        | nil => exact absurd (nullable_iff.mpr h1) hn
        | cons d l1 =>
          simp only [List.cons_append] at hl
          injection hl with hcd hl2
          exact ⟨l1, l2, hl2, iha.mpr (hcd ▸ h1), h2⟩
  | alt a b iha ihb =>
    rw [deriv, matches_altS, matches_alt_iff, iha, ihb]

theorem prefixB_iff {r : RE} {l : List Char} :
    prefixB r l = true ↔ ∃ m v, l = m ++ v ∧ Matches r m := by
  induction l generalizing r with
  | nil =>
    rw [prefixB, nullable_iff]
    constructor
    · intro h; exact ⟨[], [], rfl, h⟩
    · rintro ⟨m, v, hl, hm⟩
      rcases List.append_eq_nil.mp hl.symm with ⟨e1, _⟩
      exact e1 ▸ hm
  | cons c l ih =>
    rw [prefixB, Bool.or_eq_true, nullable_iff, ih]
    constructor
    · rintro (h0 | ⟨m, v, hl, hm⟩)
      · exact ⟨[], c :: l, rfl, h0⟩
      · exact ⟨c :: m, v, by simp [hl], deriv_iff.mp hm⟩
    · rintro ⟨m, v, hl, hm⟩
      cases m with
      | nil => exact Or.inl hm
      | cons d m =>
        right
        simp only [List.cons_append] at hl
        injection hl with hcd hl2
        exact ⟨m, v, hl2, deriv_iff.mpr (hcd ▸ hm)⟩

theorem searchList_iff {r : RE} {l : List Char} :
    searchList r l = true ↔ SearchP r l := by
  induction l with
  | nil =>
    rw [searchList, nullable_iff]
    constructor
    · intro h; exact ⟨[], [], [], rfl, h⟩
    · rintro ⟨u, m, v, hl, hm⟩
      rcases List.append_eq_nil.mp hl.symm with ⟨e1, _⟩
      rcases List.append_eq_nil.mp e1 with ⟨_, e4⟩
      exact e4 ▸ hm
  | cons c l ih =>
    rw [searchList, Bool.or_eq_true, prefixB_iff, ih]
    constructor
    · rintro (⟨m, v, hl, hm⟩ | ⟨u, m, v, hl, hm⟩)
      · exact ⟨[], m, v, by simp [hl], hm⟩
      · exact ⟨c :: u, m, v, by simp [hl], hm⟩
    · rintro ⟨u, m, v, hl, hm⟩
      cases u with
      | nil =>
        left
        simp only [List.nil_append] at hl
        exact ⟨m, v, hl, hm⟩
      | cons d u =>
        right
        simp only [List.cons_append] at hl
        injection hl with hcd hl2
        exact ⟨u, m, v, hl2, hm⟩

/- ----------------------------------------------------------------
The optional prefix groups of TARGET_TITLE_REGEX never influence an
unanchored search: the full pattern and its fixed core accept exactly
the same texts.
---------------------------------------------------------------- -/

theorem searchP_target_iff_core {l : List Char} :
    SearchP TARGET_TITLE_REGEX l ↔ SearchP corePhrase l := by
  constructor
  · rintro ⟨u, m, v, hl, hm⟩
    rw [TARGET_TITLE_REGEX] at hm
    rcases matches_seq_iff.mp hm with ⟨m1, m2, hm12, _, h2⟩
    rcases matches_seq_iff.mp h2 with ⟨m3, m4, hm34, _, h4⟩
    exact ⟨u ++ (m1 ++ m3), m4, v, by simp [hl, hm12, hm34], h4⟩
  · rintro ⟨u, m, v, hl, hm⟩
    refine ⟨u, m, v, hl, ?_⟩
    rw [TARGET_TITLE_REGEX]
    have h1 : Matches (optR secNum) [] := .altL .eps
    have h2 : Matches (optR monthYear) [] := .altL .eps
    simpa using Matches.seq h1 (Matches.seq h2 hm)

theorem search_target_eq_core (l : List Char) :
    searchList TARGET_TITLE_REGEX l = searchList corePhrase l :=
  bool_eq_of_true_iff (searchList_iff.trans (searchP_target_iff_core.trans searchList_iff.symm))

/- ----------------------------------------------------------------
Header-signature matcher: characterization.
---------------------------------------------------------------- -/

theorem headerMatches_iff {t : Table} :
    headerMatches t = true ↔
      ∃ r0 rest, t = r0 :: rest ∧ ∀ e ∈ EXPECTED_COLUMNS, e ∈ headerNorm r0 := by
  cases t with
  | nil =>
    simp only [headerMatches]
    constructor
    · intro h; exact absurd h (by simp)
    · rintro ⟨r0, rest, h, _⟩; exact absurd h (by simp)
  | cons r0 rest =>
    rw [headerMatches]
    by_cases he : r0.isEmpty
    · rw [if_pos he]
      have hr : r0 = [] := List.isEmpty_iff.mp he
      subst hr
      constructor
      · intro h; exact absurd h (by simp)
      · rintro ⟨r0h, resth, heq, hall⟩
        injection heq with h1 h2
        subst h1
        have := hall "foods tracked" (by simp [EXPECTED_COLUMNS])
        simp [headerNorm] at this
    · rw [if_neg he, List.all_eq_true]
      constructor
      · intro h
        exact ⟨r0, rest, rfl, fun e he2 => of_decide_eq_true (h e he2)⟩
      · rintro ⟨r0h, resth, heq, hall⟩
        injection heq with h1 h2
        subst h1
        exact fun e he2 => decide_eq_true (hall e he2)

/- ----------------------------------------------------------------
Locator lemmas: stepping, non-interference of skipped pages, and the
specification of a successful find.
---------------------------------------------------------------- -/

theorem pass1_skip {pg : Page} {rest : List Page} {n : Nat}
    (h : title_matches pg.text = false ∨ pg.tables.find? headerMatches = none) :
    (pass1 (pg :: rest) n).2 = (pass1 rest (n + 1)).2 := by
  rcases h with h | h
  · simp [pass1, h]
  · cases ht : title_matches pg.text
    · simp [pass1, ht]
    · simp [pass1, ht, h]

theorem pass1_found_head {pg : Page} {rest : List Page} {n : Nat} {t : Table}
    (ht : title_matches pg.text = true) (hf : pg.tables.find? headerMatches = some t) :
    pass1 (pg :: rest) n = ([n], some (t, n)) := by
  simp [pass1, ht, hf]

theorem pass2_skip {pg : Page} {rest : List Page} {n : Nat}
    (h : pg.tables.find? headerMatches = none) :
    pass2 (pg :: rest) n = pass2 rest (n + 1) := by
  simp [pass2, h]

theorem pass2_found_head {pg : Page} {rest : List Page} {n : Nat} {t : Table}
    (hf : pg.tables.find? headerMatches = some t) :
    pass2 (pg :: rest) n = some (t, n) := by
  simp [pass2, hf]

theorem pass1_none_hits :
    ∀ (pages : List Page) (n : Nat),
      (pass1 pages n).2 = none → (pass1 pages n).1 = titleHits pages n := by
  intro pages
  induction pages with
  | nil => intro n _; rfl
  | cons pg rest ih =>
    intro n h
    cases ht : title_matches pg.text with
    | false =>
      simp only [pass1, ht, Bool.false_eq_true, if_false, titleHits] at h ⊢
      exact ih _ h
    | true =>
      cases hf : pg.tables.find? headerMatches with
      | some t => simp [pass1, ht, hf] at h
      | none =>
        simp only [pass1, ht, if_true, hf, titleHits] at h ⊢
        rw [ih _ h]

theorem pass1_no_titles :
    ∀ (pages : List Page) (n : Nat),
      (∀ pg ∈ pages, title_matches pg.text = false) → pass1 pages n = ([], none) := by
  intro pages
  induction pages with
  | nil => intro n _; rfl
  | cons pg rest ih =>
    intro n h
    have h0 : title_matches pg.text = false := h pg (by simp)
    simp only [pass1, h0, Bool.false_eq_true, if_false]
    exact ih _ fun q hq => h q (List.mem_cons_of_mem _ hq)

theorem pass2_skip_many :
    ∀ (ps rest : List Page) (n : Nat),
      (∀ pg ∈ ps, pg.tables.find? headerMatches = none) →
      pass2 (ps ++ rest) n = pass2 rest (n + ps.length) := by
  intro ps
  induction ps with
  | nil => intro rest n _; simp
  | cons p ps ih =>
    intro rest n h
    have h0 : p.tables.find? headerMatches = none := h p (by simp)
    rw [List.cons_append, pass2_skip h0, ih rest (n + 1) (fun q hq => h q (List.mem_cons_of_mem _ hq))]
    congr 1
    simp
    omega

theorem extract_eq_found_of_pass1 {pages : List Page} {t : Table} {n : Nat}
    (h : (pass1 pages 1).2 = some (t, n)) :
    extract_target_table pages = .found t n := by
  simp [extract_target_table, h]

theorem extract_eq_found_of_pass2 {pages : List Page} {t : Table} {n : Nat}
    (h1 : (pass1 pages 1).2 = none) (h2 : pass2 pages 1 = some (t, n)) :
    extract_target_table pages = .found t n := by
  simp [extract_target_table, h1, h2]

theorem extract_eq_fail {pages : List Page}
    (h1 : (pass1 pages 1).2 = none) (h2 : pass2 pages 1 = none) :
    extract_target_table pages =
      if (pass1 pages 1).1.isEmpty then .noTitleNoTable
      else .titleFoundNoMatchingTable (pass1 pages 1).1 := by
  simp [extract_target_table, h1, h2]

theorem pass1_found_spec :
    ∀ (pages : List Page) (n0 : Nat) {t : Table} {n : Nat},
      (pass1 pages n0).2 = some (t, n) →
      headerMatches t = true ∧ n0 ≤ n ∧ n < n0 + pages.length ∧
        t ∈ (pages.getD (n - n0) ⟨none, []⟩).tables := by
  intro pages
  induction pages with
  | nil => intro n0 t n h; simp [pass1] at h
  | cons pg rest ih =>
    intro n0 t n h
    cases ht : title_matches pg.text with
    | true =>
      cases hf : pg.tables.find? headerMatches with
      | some t2 =>
        rw [pass1_found_head ht hf] at h
        simp only [Option.some.injEq, Prod.mk.injEq] at h
        obtain ⟨h1, h2⟩ := h
        subst h1; subst h2
        refine ⟨List.find?_some hf, le_refl _, by simp, ?_⟩
        simpa using List.mem_of_find?_eq_some hf
      | none =>
        rw [pass1_skip (Or.inr hf)] at h
        obtain ⟨hm, hle, hlt, hmem⟩ := ih (n0 + 1) h
        refine ⟨hm, by omega, by simp; omega, ?_⟩
        have he : n - n0 = (n - (n0 + 1)) + 1 := by omega
        rw [he]
        simpa using hmem
    | false =>
      rw [pass1_skip (Or.inl ht)] at h
      obtain ⟨hm, hle, hlt, hmem⟩ := ih (n0 + 1) h
      refine ⟨hm, by omega, by simp; omega, ?_⟩
      have he : n - n0 = (n - (n0 + 1)) + 1 := by omega
      rw [he]
      simpa using hmem

theorem pass2_found_spec :
    ∀ (pages : List Page) (n0 : Nat) {t : Table} {n : Nat},
      pass2 pages n0 = some (t, n) →
      headerMatches t = true ∧ n0 ≤ n ∧ n < n0 + pages.length ∧
        t ∈ (pages.getD (n - n0) ⟨none, []⟩).tables := by
  intro pages
  induction pages with
  | nil => intro n0 t n h; simp [pass2] at h
  | cons pg rest ih =>
    intro n0 t n h
    cases hf : pg.tables.find? headerMatches with
    | some t2 =>
      rw [pass2_found_head hf] at h
      simp only [Option.some.injEq, Prod.mk.injEq] at h
      obtain ⟨h1, h2⟩ := h
      subst h1; subst h2
      refine ⟨List.find?_some hf, le_refl _, by simp, ?_⟩
      simpa using List.mem_of_find?_eq_some hf
    | none =>
      rw [pass2_skip hf] at h
      obtain ⟨hm, hle, hlt, hmem⟩ := ih (n0 + 1) h
      refine ⟨hm, by omega, by simp; omega, ?_⟩
      have he : n - n0 = (n - (n0 + 1)) + 1 := by omega
      rw [he]
      simpa using hmem

theorem extract_found_spec {pages : List Page} {t : Table} {n : Nat}
    (h : extract_target_table pages = .found t n) :
    headerMatches t = true ∧ 1 ≤ n ∧ n ≤ pages.length ∧
      t ∈ (pages.getD (n - 1) ⟨none, []⟩).tables := by
  cases h1 : (pass1 pages 1).2 with
  | some r =>
    obtain ⟨t2, n2⟩ := r
    rw [extract_eq_found_of_pass1 h1] at h
    simp only [LocateResult.found.injEq] at h
    obtain ⟨ht2, hn2⟩ := h
    subst ht2; subst hn2
    obtain ⟨hm, hle, hlt, hmem⟩ := pass1_found_spec pages 1 h1
    exact ⟨hm, hle, by omega, hmem⟩
  | none =>
    cases h2 : pass2 pages 1 with
    | some r =>
      obtain ⟨t2, n2⟩ := r
      rw [extract_eq_found_of_pass2 h1 h2] at h
      simp only [LocateResult.found.injEq] at h
      obtain ⟨ht2, hn2⟩ := h
      subst ht2; subst hn2
      obtain ⟨hm, hle, hlt, hmem⟩ := pass2_found_spec pages 1 h2
      exact ⟨hm, hle, by omega, hmem⟩
    | none =>
      rw [extract_eq_fail h1 h2] at h
      split at h <;> simp at h

/- ----------------------------------------------------------------
Explicit characterization of the strings matched by the core title
phrase.
---------------------------------------------------------------- -/

theorem matches_strCI {w l : List Char} :
    Matches (strCI w) l ↔ l.map lowerA = w.map lowerA := by
  induction w generalizing l with
  | nil =>
    rw [strCI, matches_eps_iff]
    simp
  | cons c cs ih =>
    rw [strCI, matches_seq_iff]
    constructor
    · rintro ⟨l1, l2, hl, h1, h2⟩
      rcases matches_cls_iff.mp h1 with ⟨d, hd, hpd⟩
      subst hd
      subst hl
      have hlow : lowerA d = lowerA c := beq_iff_eq.mp hpd
      simp [hlow, ih.mp h2]
    · intro h
      cases l with
      | nil => simp at h
      | cons d l2 =>
        simp only [List.map_cons, List.cons.injEq] at h
        exact ⟨[d], l2, rfl,
          matches_cls_iff.mpr ⟨d, rfl, beq_iff_eq.mpr h.1⟩, ih.mpr h.2⟩

theorem matches_sP {l : List Char} : Matches sP l ↔ l ≠ [] ∧ WsRun l := by
  rw [sP, matches_seq_iff]
  constructor
  · rintro ⟨l1, l2, hl, h1, h2⟩
    rcases matches_cls_iff.mp h1 with ⟨c, hc, hpc⟩
    subst hc
    subst hl
    refine ⟨by simp, ?_⟩
    intro d hd
    rcases List.mem_cons.mp hd with h3 | h3
    · exact h3 ▸ hpc
    · exact matches_star_iff.mp h2 d h3
  · rintro ⟨hne, hws⟩
    cases l with
    | nil => exact absurd rfl hne
    | cons c l2 =>
      exact ⟨[c], l2, rfl, matches_cls_iff.mpr ⟨c, rfl, hws c (by simp)⟩,
        matches_star_iff.mpr fun d hd => hws d (List.mem_cons_of_mem _ hd)⟩

theorem matches_sS {l : List Char} : Matches sS l ↔ WsRun l := by
  unfold sS WsRun
  exact matches_star_iff

theorem matches_clsChar {c : Char} {l : List Char} :
    Matches (clsChar c) l ↔ l = [c] := by
  unfold clsChar
  rw [matches_cls_iff]
  constructor
  · rintro ⟨d, hd, hpd⟩
    rw [hd, beq_iff_eq.mp hpd]
  · intro h
    exact ⟨c, h, beq_self_eq_true c⟩

theorem matches_core_iff {m : List Char} : Matches corePhrase m ↔ PhraseM m := by
  rw [corePhrase]
  constructor
  · intro h
    rcases matches_seq_iff.mp h with ⟨hh, r1, hm1, hH, h1⟩
    rcases matches_seq_iff.mp h1 with ⟨w1, r2, hm2, hW1, h2⟩
    rcases matches_seq_iff.mp h2 with ⟨ff, r3, hm3, hF, h3⟩
    rcases matches_seq_iff.mp h3 with ⟨w2, r4, hm4, hW2, h4⟩
    rcases matches_seq_iff.mp h4 with ⟨bb, r5, hm5, hB, h5⟩
    rcases matches_seq_iff.mp h5 with ⟨w3, r6, hm6, hW3, h6⟩
    rcases matches_seq_iff.mp h6 with ⟨co, r7, hm7, hCo, h7⟩
    rcases matches_seq_iff.mp h7 with ⟨w4, r8, hm8, hW4, h8⟩
    rcases matches_seq_iff.mp h8 with ⟨pp, r9, hm9, hP, h9⟩
    rcases matches_seq_iff.mp h9 with ⟨w5, r10, hm10, hW5, h10⟩
    rcases matches_seq_iff.mp h10 with ⟨aa, r11, hm11, hA, h11⟩
    rcases matches_seq_iff.mp h11 with ⟨w6, r12, hm12, hW6, h12⟩
    rcases matches_seq_iff.mp h12 with ⟨cm, r13, hm13, hCm, h13⟩
    rcases matches_seq_iff.mp h13 with ⟨w7, cc, hm14, hW7, hC⟩
    rw [matches_strCI] at hH hF hB hP hA hC
    rw [matches_sP] at hW1 hW2 hW5
    rw [matches_sS] at hW3 hW4 hW6 hW7
    rw [matches_clsChar] at hCo hCm
    subst hCo; subst hCm
    subst hm14; subst hm13; subst hm12; subst hm11; subst hm10; subst hm9
    subst hm8; subst hm7; subst hm6; subst hm5; subst hm4; subst hm3
    subst hm2; subst hm1
    refine ⟨hh, w1, ff, w2, bb, w3, w4, pp, w5, aa, w6, w7, cc,
      by simp, hH.trans (by decide), hW1.2, hW1.1,
      hF.trans (by decide), hW2.2, hW2.1,
      hB.trans (by decide), hW3, hW4,
      hP.trans (by decide), hW5.2, hW5.1,
      hA.trans (by decide), hW6, hW7,
      hC.trans (by decide)⟩
  · rintro ⟨hh, w1, ff, w2, bb, w3, w4, pp, w5, aa, w6, w7, cc, hm,
      hH, hW1, hW1n, hF, hW2, hW2n, hB, hW3, hW4, hP, hW5, hW5n, hA, hW6, hW7, hC⟩
    subst hm
    have heq :
        hh ++ w1 ++ ff ++ w2 ++ bb ++ w3 ++
            ':' :: (w4 ++ pp ++ w5 ++ aa ++ w6 ++ ',' :: (w7 ++ cc)) =
          hh ++ (w1 ++ (ff ++ (w2 ++ (bb ++ (w3 ++ ([':'] ++ (w4 ++ (pp ++
            (w5 ++ (aa ++ (w6 ++ ([','] ++ (w7 ++ cc))))))))))))) := by
      simp
    rw [heq]
    refine Matches.seq (matches_strCI.mpr ?_)
      (Matches.seq (matches_sP.mpr ⟨hW1n, hW1⟩)
        (Matches.seq (matches_strCI.mpr ?_)
          (Matches.seq (matches_sP.mpr ⟨hW2n, hW2⟩)
            (Matches.seq (matches_strCI.mpr ?_)
              (Matches.seq (matches_sS.mpr hW3)
                (Matches.seq (matches_clsChar.mpr rfl)
                  (Matches.seq (matches_sS.mpr hW4)
                    (Matches.seq (matches_strCI.mpr ?_)
                      (Matches.seq (matches_sP.mpr ⟨hW5n, hW5⟩)
                        (Matches.seq (matches_strCI.mpr ?_)
                          (Matches.seq (matches_sS.mpr hW6)
                            (Matches.seq (matches_clsChar.mpr rfl)
                              (Matches.seq (matches_sS.mpr hW7)
                                (matches_strCI.mpr ?_))))))))))))))
    · exact (show hh.map lowerA = _ from hH).trans (by decide)
    · exact (show ff.map lowerA = _ from hF).trans (by decide)
    · exact (show bb.map lowerA = _ from hB).trans (by decide)
    · exact (show pp.map lowerA = _ from hP).trans (by decide)
    · exact (show aa.map lowerA = _ from hA).trans (by decide)
    · exact (show cc.map lowerA = _ from hC).trans (by decide)

theorem searchP_core_iff_contains {l : List Char} :
    SearchP corePhrase l ↔ ContainsPhrase l := by
  unfold SearchP ContainsPhrase
  constructor <;> rintro ⟨u, m, v, hl, hm⟩
  · exact ⟨u, m, v, hl, matches_core_iff.mp hm⟩
  · exact ⟨u, m, v, hl, matches_core_iff.mpr hm⟩

/- ----------------------------------------------------------------
Whitespace collapsing: structural lemmas.
---------------------------------------------------------------- -/

theorem endsWs_cons (b : Bool) (c : Char) (x : List Char) :
    endsWs b (c :: x) = endsWs (isSpaceB c) x := rfl

theorem endsWs_append (b : Bool) (x y : List Char) :
    endsWs b (x ++ y) = endsWs (endsWs b x) y := by
  unfold endsWs
  rw [List.foldl_append]

theorem collapseAux_append :
    ∀ (x : List Char) (b : Bool) (y : List Char),
      collapseAux b (x ++ y) = collapseAux b x ++ collapseAux (endsWs b x) y := by
  intro x
  induction x with
  | nil => intro b y; rfl
  | cons c x ih =>
    intro b y
    rw [List.cons_append, endsWs_cons]
    cases hc : isSpaceB c <;> cases b <;> simp [collapseAux, hc, ih]

theorem collapseAux_flag {y : List Char} (h : HeadNonWs y) (b1 b2 : Bool) :
    collapseAux b1 y = collapseAux b2 y := by
  cases y with
  | nil => rfl
  | cons c t =>
    unfold HeadNonWs at h
    simp [collapseAux, h]

theorem collapseAux_nonws : ∀ {x : List Char}, NonWsRun x → ∀ (b : Bool), collapseAux b x = x := by
  intro x
  induction x with
  | nil => intro _ b; rfl
  | cons c t ih =>
    intro h b
    have hc : isSpaceB c = false := h c (by simp)
    simp only [collapseAux, hc, Bool.false_eq_true, if_false]
    rw [ih (fun d hd => h d (List.mem_cons_of_mem _ hd)) false]

theorem collapseAux_wsrun_true : ∀ {w : List Char}, WsRun w → collapseAux true w = [] := by
  intro w
  induction w with
  | nil => intro _; rfl
  | cons c t ih =>
    intro h
    have hc : isSpaceB c = true := h c (by simp)
    simp only [collapseAux, hc, if_true]
    exact ih fun d hd => h d (List.mem_cons_of_mem _ hd)

theorem collapseAux_wsrun_false {w : List Char} (h : WsRun w) (hne : w ≠ []) :
    collapseAux false w = [' '] := by
  cases w with
  | nil => exact absurd rfl hne
  | cons c t =>
    have hc : isSpaceB c = true := h c (by simp)
    have ht : WsRun t := fun d hd => h d (List.mem_cons_of_mem _ hd)
    simp [collapseAux, hc, collapseAux_wsrun_true ht]

theorem endsWs_wsrun : ∀ {w : List Char}, WsRun w → w ≠ [] → ∀ (b : Bool), endsWs b w = true := by
  intro w
  induction w with
  | nil => intro _ hne; exact absurd rfl hne
  | cons c t ih =>
    intro h _ b
    rw [endsWs_cons]
    cases t with
    | nil => exact h c (by simp)
    | cons d t2 =>
      exact ih (fun e he => h e (List.mem_cons_of_mem _ he)) (by simp) _

theorem endsWs_nonws : ∀ {x : List Char}, NonWsRun x → x ≠ [] → ∀ (b : Bool), endsWs b x = false := by
  intro x
  induction x with
  | nil => intro _ hne; exact absurd rfl hne
  | cons c t ih =>
    intro h _ b
    rw [endsWs_cons]
    cases t with
    | nil => exact h c (by simp)
    | cons d t2 =>
      exact ih (fun e he => h e (List.mem_cons_of_mem _ he)) (by simp) _

theorem collapse_head_append {x y : List Char} (hy : HeadNonWs y) (b : Bool) :
    collapseAux b (x ++ y) = collapseAux b x ++ collapseAux false y := by
  rw [collapseAux_append]
  congr 1
  exact collapseAux_flag hy _ _

theorem collapseAux_true_dropWhile :
    ∀ (t : List Char), collapseAux true t = collapseAux false (t.dropWhile isSpaceB) := by
  intro t
  induction t with
  | nil => rfl
  | cons c t ih =>
    cases hc : isSpaceB c with
    | true =>
      simp only [collapseAux, hc, if_true, List.dropWhile_cons, ih]
    | false =>
      simp only [collapseAux, hc, Bool.false_eq_true, if_false, List.dropWhile_cons]

/- ----------------------------------------------------------------
Segment decomposition: every text splits into single non-whitespace
characters and whitespace runs, whose single-character images form the
collapsed text.
---------------------------------------------------------------- -/

theorem segments_exist (l : List Char) :
    ∃ segs : List (List Char),
      (∀ s ∈ segs, IsSeg s) ∧ segs.flatten = l ∧ segs.map segRep = collapse l := by
  suffices h : ∀ (n : Nat) (l : List Char), l.length ≤ n →
      ∃ segs : List (List Char),
        (∀ s ∈ segs, IsSeg s) ∧ segs.flatten = l ∧ segs.map segRep = collapse l by
    exact h l.length l le_rfl
  intro n
  induction n with
  | zero =>
    intro l hl
    cases l with
    | nil => exact ⟨[], by simp, rfl, rfl⟩
    | cons c t => simp at hl
  | succ n ih =>
    intro l hl
    cases l with
    | nil => exact ⟨[], by simp, rfl, rfl⟩
    | cons c t =>
      cases hc : isSpaceB c with
      | false =>
        obtain ⟨segs, h1, h2, h3⟩ := ih t (by simp at hl; omega)
        refine ⟨[c] :: segs, ?_, by simp [h2], ?_⟩
        · intro s hs
          rcases List.mem_cons.mp hs with h4 | h4
          · exact Or.inl ⟨c, hc, h4⟩
          · exact h1 s h4
        · simp only [List.map_cons, segRep, hc, Bool.false_eq_true, if_false, h3]
          simp only [collapse, collapseAux, hc, Bool.false_eq_true, if_false]
      | true =>
        obtain ⟨segs, h1, h2, h3⟩ :=
          ih (t.dropWhile isSpaceB)
            (by
              have := (List.dropWhile_sublist (l := t) isSpaceB).length_le
              simp at hl
              omega)
        refine ⟨(c :: t.takeWhile isSpaceB) :: segs, ?_, ?_, ?_⟩
        · intro s hs
          rcases List.mem_cons.mp hs with h4 | h4
          · refine Or.inr ⟨by simp [h4], ?_⟩
            intro d hd
            rw [h4] at hd
            rcases List.mem_cons.mp hd with h5 | h5
            · exact h5 ▸ hc
            · exact List.mem_takeWhile_imp h5
          · exact h1 s h4
        · simp only [List.flatten_cons, h2]
          rw [List.cons_append, List.takeWhile_append_dropWhile]
        · simp only [List.map_cons, segRep, hc, if_true, h3]
          simp only [collapse, collapseAux, hc, if_true]
          rw [collapseAux_true_dropWhile]
          simp

/- ----------------------------------------------------------------
Structural facts about phrase occurrences.
---------------------------------------------------------------- -/

theorem CIw_nonws {h w : List Char} (hw : NonWsRun w) (hH : CIw h w) : NonWsRun h := by
  intro c hc
  have hH2 : h.map lowerA = w := hH
  have h1 : lowerA c ∈ w := by
    rw [← hH2]
    exact List.mem_map_of_mem lowerA hc
  have h2 := hw _ h1
  rw [← isSpaceB_lowerA c]
  exact h2

theorem CIw_ne_nil {h w : List Char} (hH : CIw h w) (hw : w ≠ []) : h ≠ [] := by
  have hH2 : h.map lowerA = w := hH
  intro he
  subst he
  simp at hH2
  exact hw hH2

theorem headNonWs_append_left {m v : List Char} (h : HeadNonWs m) (hne : m ≠ []) :
    HeadNonWs (m ++ v) := by
  cases m with
  | nil => exact absurd rfl hne
  | cons c t => exact h

theorem phraseM_shape {m : List Char} (hp : PhraseM m) :
    ∃ hh z cc, m = hh ++ z ++ cc ∧ NonWsRun hh ∧ hh ≠ [] ∧ NonWsRun cc ∧ cc ≠ [] := by
  obtain ⟨hh, w1, ff, w2, bb, w3, w4, pp, w5, aa, w6, w7, cc, hmeq, hH, hW1, hW1n, hF,
    hW2, hW2n, hB, hW3, hW4, hP, hW5, hW5n, hA, hW6, hW7, hC⟩ := hp
  refine ⟨hh, w1 ++ ff ++ w2 ++ bb ++ w3 ++
      ':' :: (w4 ++ pp ++ w5 ++ aa ++ w6 ++ ',' :: w7), cc,
    ?_, CIw_nonws (by decide) hH, CIw_ne_nil hH (by decide),
    CIw_nonws (by decide) hC, CIw_ne_nil hC (by decide)⟩
  rw [hmeq]
  simp

theorem phraseM_headNonWs {m : List Char} (hp : PhraseM m) : HeadNonWs m ∧ m ≠ [] := by
  obtain ⟨hh, z, cc, hm, hnw, hne, _, _⟩ := phraseM_shape hp
  subst hm
  cases hh with
  | nil => exact absurd rfl hne
  | cons c t =>
    constructor
    · rw [List.cons_append, List.cons_append]
      exact hnw c (by simp)
    · simp

theorem phraseM_endsWs {m : List Char} (hp : PhraseM m) (b : Bool) : endsWs b m = false := by
  obtain ⟨hh, z, cc, hm, _, _, hnwc, hnec⟩ := phraseM_shape hp
  subst hm
  rw [endsWs_append]
  exact endsWs_nonws hnwc hnec _

theorem phraseM_revHead {m : List Char} (hp : PhraseM m) :
    HeadNonWs m.reverse ∧ m.reverse ≠ [] := by
  obtain ⟨hh, z, cc, hm, _, hneh, hnwc, hnec⟩ := phraseM_shape hp
  subst hm
  rw [List.reverse_append]
  cases hrev : cc.reverse with
  | nil => exact absurd (List.reverse_eq_nil_iff.mp hrev) hnec
  | cons c t =>
    constructor
    · rw [List.cons_append]
      have hc : c ∈ cc := by
        rw [← List.mem_reverse, hrev]
        simp
      exact hnwc c hc
    · simp

/- ----------------------------------------------------------------
Collapse transport for phrase containment, forward direction.
---------------------------------------------------------------- -/

theorem collapse_word_chunk {x : List Char} (hx : NonWsRun x) (y : List Char) :
    collapseAux false (x ++ y) = x ++ collapseAux false y := by
  rw [collapseAux_append, collapseAux_nonws hx]
  congr 1
  cases x with
  | nil => rfl
  | cons c t => rw [endsWs_nonws hx (by simp) false]

theorem collapse_cons_nonws {c : Char} (hc : isSpaceB c = false) (y : List Char) :
    collapseAux false (c :: y) = c :: collapseAux false y := by
  simp [collapseAux, hc]

theorem collapse_ws_chunk {w y : List Char} (hw : WsRun w) (hy : HeadNonWs y) :
    collapseAux false (w ++ y) = collapseAux false w ++ collapseAux false y := by
  cases w with
  | nil => rfl
  | cons c t =>
    rw [collapseAux_append, endsWs_wsrun hw (by simp) false, collapseAux_flag hy true false]

theorem collapse_wsrun_isws {w : List Char} (hw : WsRun w) :
    WsRun (collapseAux false w) ∧ (w ≠ [] → collapseAux false w ≠ []) := by
  cases w with
  | nil => exact ⟨by intro c hc; simp [collapseAux] at hc, fun h => absurd rfl h⟩
  | cons c t =>
    rw [collapseAux_wsrun_false hw (by simp)]
    exact ⟨by decide, fun _ => by simp⟩

theorem headNonWs_of_nonws {x : List Char} (hx : NonWsRun x) (hne : x ≠ []) :
    HeadNonWs x := by
  cases x with
  | nil => trivial
  | cons c t => exact hx c (by simp)

theorem headNonWs_cons {c : Char} (hc : isSpaceB c = false) (t : List Char) :
    HeadNonWs (c :: t) := hc

theorem contains_collapse_of_contains {l : List Char} (h : ContainsPhrase l) :
    ContainsPhrase (collapse l) := by
  obtain ⟨a, m, v, hl, hm⟩ := h
  subst hl
  have hHead := phraseM_headNonWs hm
  have hEnds := phraseM_endsWs hm
  obtain ⟨hh, w1, ff, w2, bb, w3, w4, pp, w5, aa, w6, w7, cc, hmeq, hH, hW1, hW1n, hF,
    hW2, hW2n, hB, hW3, hW4, hP, hW5, hW5n, hA, hW6, hW7, hC⟩ := hm
  have hhNW : NonWsRun hh := CIw_nonws (by decide) hH
  have ffNW : NonWsRun ff := CIw_nonws (by decide) hF
  have bbNW : NonWsRun bb := CIw_nonws (by decide) hB
  have ppNW : NonWsRun pp := CIw_nonws (by decide) hP
  have aaNW : NonWsRun aa := CIw_nonws (by decide) hA
  have ccNW : NonWsRun cc := CIw_nonws (by decide) hC
  have ffNe : ff ≠ [] := CIw_ne_nil hF (by decide)
  have bbNe : bb ≠ [] := CIw_ne_nil hB (by decide)
  have ppNe : pp ≠ [] := CIw_ne_nil hP (by decide)
  have aaNe : aa ≠ [] := CIw_ne_nil hA (by decide)
  have ccNe : cc ≠ [] := CIw_ne_nil hC (by decide)
  have hmR : m = hh ++ (w1 ++ (ff ++ (w2 ++ (bb ++ (w3 ++ (':' :: (w4 ++ (pp ++ (w5 ++ (aa ++ (w6 ++ (',' :: (w7 ++ (cc)))))))))))))) := by
    rw [hmeq]
    simp
  have e1 : collapseAux false m = hh ++ (collapseAux false w1 ++ (ff ++ (collapseAux false w2 ++ (bb ++ (collapseAux false w3 ++ (':' :: (collapseAux false w4 ++ (pp ++ (collapseAux false w5 ++ (aa ++ (collapseAux false w6 ++ (',' :: (collapseAux false w7 ++ (cc)))))))))))))) := by
    rw [hmR]
    rw [collapse_word_chunk hhNW]
    rw [collapse_ws_chunk hW1 (headNonWs_append_left (headNonWs_of_nonws ffNW ffNe) ffNe)]
    rw [collapse_word_chunk ffNW]
    rw [collapse_ws_chunk hW2 (headNonWs_append_left (headNonWs_of_nonws bbNW bbNe) bbNe)]
    rw [collapse_word_chunk bbNW]
    rw [collapse_ws_chunk hW3 (headNonWs_cons (by decide) _)]
    rw [collapse_cons_nonws (by decide)]
    rw [collapse_ws_chunk hW4 (headNonWs_append_left (headNonWs_of_nonws ppNW ppNe) ppNe)]
    rw [collapse_word_chunk ppNW]
    rw [collapse_ws_chunk hW5 (headNonWs_append_left (headNonWs_of_nonws aaNW aaNe) aaNe)]
    rw [collapse_word_chunk aaNW]
    rw [collapse_ws_chunk hW6 (headNonWs_cons (by decide) _)]
    rw [collapse_cons_nonws (by decide)]
    rw [collapse_ws_chunk hW7 (headNonWs_of_nonws ccNW ccNe)]
    rw [collapseAux_nonws ccNW]
  have hmv : HeadNonWs (m ++ v) := headNonWs_append_left hHead.1 hHead.2
  have hsplit : collapse ((a ++ m) ++ v) =
      collapseAux false a ++ (collapseAux false m ++ collapseAux false v) := by
    rw [collapse, List.append_assoc, collapse_head_append hmv, collapseAux_append,
      hEnds false]
  refine ⟨collapseAux false a,
    hh ++ collapseAux false w1 ++ ff ++ collapseAux false w2 ++ bb ++ collapseAux false w3 ++ ':' :: (collapseAux false w4 ++ pp ++ collapseAux false w5 ++ aa ++ collapseAux false w6 ++ ',' :: (collapseAux false w7 ++ cc)),
    collapseAux false v, ?_, ?_⟩
  · rw [hsplit, e1]
    simp
  · exact ⟨hh, collapseAux false w1, ff, collapseAux false w2, bb,
      collapseAux false w3, collapseAux false w4, pp, collapseAux false w5, aa,
      collapseAux false w6, collapseAux false w7, cc, rfl, hH,
      (collapse_wsrun_isws hW1).1, (collapse_wsrun_isws hW1).2 hW1n, hF,
      (collapse_wsrun_isws hW2).1, (collapse_wsrun_isws hW2).2 hW2n, hB,
      (collapse_wsrun_isws hW3).1, (collapse_wsrun_isws hW4).1, hP,
      (collapse_wsrun_isws hW5).1, (collapse_wsrun_isws hW5).2 hW5n, hA,
      (collapse_wsrun_isws hW6).1, (collapse_wsrun_isws hW7).1, hC⟩

theorem seg_join_word :
    ∀ {segs : List (List Char)}, (∀ s ∈ segs, IsSeg s) →
      ∀ {w : List Char}, NonWsRun w → segs.map segRep = w → segs.flatten = w := by
  intro segs
  induction segs with
  | nil =>
    intro _ w _ hmap
    rw [← hmap]
    rfl
  | cons s segs ih =>
    intro hs w hw hmap
    cases w with
    | nil => simp at hmap
    | cons d w2 =>
      simp only [List.map_cons, List.cons.injEq] at hmap
      obtain ⟨h1, h2⟩ := hmap
      have hd : isSpaceB d = false := hw d (by simp)
      rcases hs s (by simp) with ⟨c, hc, hseq⟩ | ⟨hne, hwsr⟩
      · subst hseq
        have hrep : segRep [c] = c := by simp [segRep, hc]
        rw [hrep] at h1
        subst h1
        simp only [List.flatten_cons, List.singleton_append]
        rw [ih (fun t ht => hs t (List.mem_cons_of_mem _ ht))
          (fun e he => hw e (List.mem_cons_of_mem _ he)) h2]
      · exfalso
        cases s with
        | nil => exact hne rfl
        | cons c t =>
          have hc : isSpaceB c = true := hwsr c (by simp)
          have hrep : segRep (c :: t) = ' ' := by simp [segRep, hc]
          rw [hrep] at h1
          rw [← h1] at hd
          exact absurd hd (by decide)

theorem seg_join_ws :
    ∀ {segs : List (List Char)}, (∀ s ∈ segs, IsSeg s) →
      ∀ {w : List Char}, WsRun w → segs.map segRep = w →
        WsRun segs.flatten ∧ (w ≠ [] → segs.flatten ≠ []) := by
  intro segs
  induction segs with
  | nil =>
    intro _ w _ hmap
    have hw2 : w = [] := by rw [← hmap]; rfl
    subst hw2
    exact ⟨by intro c hc; simp at hc, fun h => absurd rfl h⟩
  | cons s segs ih =>
    intro hs w hw hmap
    cases w with
    | nil => simp at hmap
    | cons d w2 =>
      simp only [List.map_cons, List.cons.injEq] at hmap
      obtain ⟨h1, h2⟩ := hmap
      have hd : isSpaceB d = true := hw d (by simp)
      rcases hs s (by simp) with ⟨c, hc, hseq⟩ | ⟨hne, hwsr⟩
      · exfalso
        subst hseq
        have hrep : segRep [c] = c := by simp [segRep, hc]
        rw [hrep] at h1
        rw [h1] at hc
        rw [hc] at hd
        exact absurd hd (by simp)
      · obtain ⟨hws2, hne2⟩ := ih (fun t ht => hs t (List.mem_cons_of_mem _ ht))
          (fun e he => hw e (List.mem_cons_of_mem _ he)) h2
        constructor
        · intro e he
          rw [List.flatten_cons] at he
          rcases List.mem_append.mp he with h3 | h3
          · exact hwsr e h3
          · exact hws2 e h3
        · intro _
          rw [List.flatten_cons]
          cases s with
          | nil => exact absurd rfl hne
          | cons c t => simp

theorem seg_eq_of_rep_nonws {s : List Char} (hs : IsSeg s) (h : isSpaceB (segRep s) = false) :
    s = [segRep s] := by
  rcases hs with ⟨c, hc, hseq⟩ | ⟨hne, hws⟩
  · subst hseq
    simp [segRep, hc]
  · exfalso
    cases s with
    | nil => exact hne rfl
    | cons c t =>
      have hc : isSpaceB c = true := hws c (by simp)
      rw [show segRep (c :: t) = ' ' from by simp [segRep, hc]] at h
      exact absurd h (by decide)

theorem contains_of_contains_collapse {l : List Char} (h : ContainsPhrase (collapse l)) :
    ContainsPhrase l := by
  obtain ⟨segs, hsegs, hjoin, hmap⟩ := segments_exist l
  obtain ⟨a, m, v, hc, hm⟩ := h
  rw [← hmap] at hc
  rcases List.map_eq_append_iff.mp hc with ⟨sam, sv, hsegs_eq, ham, hv⟩
  rcases List.map_eq_append_iff.mp ham with ⟨sa, sm, hsam_eq, ha, g0⟩
  obtain ⟨hh, w1, ff, w2, bb, w3, w4, pp, w5, aa, w6, w7, cc, hmeq, hH, hW1, hW1n, hF,
    hW2, hW2n, hB, hW3, hW4, hP, hW5, hW5n, hA, hW6, hW7, hC⟩ := hm
  rw [hmeq] at g0
  simp only [List.append_assoc] at g0
  rcases List.map_eq_append_iff.mp g0 with ⟨s1, r1, e1, f1, g1⟩
  rcases List.map_eq_append_iff.mp g1 with ⟨s2, r2, e2, f2, g2⟩
  rcases List.map_eq_append_iff.mp g2 with ⟨s3, r3, e3, f3, g3⟩
  rcases List.map_eq_append_iff.mp g3 with ⟨s4, r4, e4, f4, g4⟩
  rcases List.map_eq_append_iff.mp g4 with ⟨s5, r5, e5, f5, g5⟩
  rcases List.map_eq_append_iff.mp g5 with ⟨s6, r6, e6, f6, g6⟩
  rcases List.map_eq_cons_iff.mp g6 with ⟨s7, r7, e7, f7, g7⟩
  rcases List.map_eq_append_iff.mp g7 with ⟨s8, r8, e8, f8, g8⟩
  rcases List.map_eq_append_iff.mp g8 with ⟨s9, r9, e9, f9, g9⟩
  rcases List.map_eq_append_iff.mp g9 with ⟨s10, r10, e10, f10, g10⟩
  rcases List.map_eq_append_iff.mp g10 with ⟨s11, r11, e11, f11, g11⟩
  rcases List.map_eq_append_iff.mp g11 with ⟨s12, r12, e12, f12, g12⟩
  rcases List.map_eq_cons_iff.mp g12 with ⟨s13, r13, e13, f13, g13⟩
  rcases List.map_eq_append_iff.mp g13 with ⟨s14, r14, e14, f14, g14⟩
  subst hsegs_eq
  subst hsam_eq
  subst e1
  subst e2
  subst e3
  subst e4
  subst e5
  subst e6
  subst e7
  subst e8
  subst e9
  subst e10
  subst e11
  subst e12
  subst e13
  subst e14
  have hsub_s1 : ∀ s ∈ s1, IsSeg s := fun s hs => hsegs s (by simp [hs])
  have hnw_s1 : NonWsRun hh := CIw_nonws (by decide) hH
  have hj_s1 : List.flatten s1 = hh := seg_join_word hsub_s1 hnw_s1 f1
  have hsub_s2 : ∀ s ∈ s2, IsSeg s := fun s hs => hsegs s (by simp [hs])
  have hws_s2 := seg_join_ws hsub_s2 hW1 f2
  have hsub_s3 : ∀ s ∈ s3, IsSeg s := fun s hs => hsegs s (by simp [hs])
  have hnw_s3 : NonWsRun ff := CIw_nonws (by decide) hF
  have hj_s3 : List.flatten s3 = ff := seg_join_word hsub_s3 hnw_s3 f3
  have hsub_s4 : ∀ s ∈ s4, IsSeg s := fun s hs => hsegs s (by simp [hs])
  have hws_s4 := seg_join_ws hsub_s4 hW2 f4
  have hsub_s5 : ∀ s ∈ s5, IsSeg s := fun s hs => hsegs s (by simp [hs])
  have hnw_s5 : NonWsRun bb := CIw_nonws (by decide) hB
  have hj_s5 : List.flatten s5 = bb := seg_join_word hsub_s5 hnw_s5 f5
  have hsub_s6 : ∀ s ∈ s6, IsSeg s := fun s hs => hsegs s (by simp [hs])
  have hws_s6 := seg_join_ws hsub_s6 hW3 f6
  have hseg_s7 : IsSeg s7 := hsegs s7 (by simp)
  have heq_s7 : s7 = [':'] := by
    have h2 := seg_eq_of_rep_nonws hseg_s7 (by rw [f7]; decide)
    rw [f7] at h2
    exact h2
  subst heq_s7
  have hsub_s8 : ∀ s ∈ s8, IsSeg s := fun s hs => hsegs s (by simp [hs])
  have hws_s8 := seg_join_ws hsub_s8 hW4 f8
  have hsub_s9 : ∀ s ∈ s9, IsSeg s := fun s hs => hsegs s (by simp [hs])
  have hnw_s9 : NonWsRun pp := CIw_nonws (by decide) hP
  have hj_s9 : List.flatten s9 = pp := seg_join_word hsub_s9 hnw_s9 f9
  have hsub_s10 : ∀ s ∈ s10, IsSeg s := fun s hs => hsegs s (by simp [hs])
  have hws_s10 := seg_join_ws hsub_s10 hW5 f10
  have hsub_s11 : ∀ s ∈ s11, IsSeg s := fun s hs => hsegs s (by simp [hs])
  have hnw_s11 : NonWsRun aa := CIw_nonws (by decide) hA
  have hj_s11 : List.flatten s11 = aa := seg_join_word hsub_s11 hnw_s11 f11
  have hsub_s12 : ∀ s ∈ s12, IsSeg s := fun s hs => hsegs s (by simp [hs])
  have hws_s12 := seg_join_ws hsub_s12 hW6 f12
  have hseg_s13 : IsSeg s13 := hsegs s13 (by simp)
  have heq_s13 : s13 = [','] := by
    have h2 := seg_eq_of_rep_nonws hseg_s13 (by rw [f13]; decide)
    rw [f13] at h2
    exact h2
  subst heq_s13
  have hsub_s14 : ∀ s ∈ s14, IsSeg s := fun s hs => hsegs s (by simp [hs])
  have hws_s14 := seg_join_ws hsub_s14 hW7 f14
  have hsub_r14 : ∀ s ∈ r14, IsSeg s := fun s hs => hsegs s (by simp [hs])
  have hnw_r14 : NonWsRun cc := CIw_nonws (by decide) hC
  have hj_r14 : List.flatten r14 = cc := seg_join_word hsub_r14 hnw_r14 g14
  refine ⟨List.flatten sa, hh ++ List.flatten s2 ++ ff ++ List.flatten s4 ++ bb ++ List.flatten s6 ++ ':' :: (List.flatten s8 ++ pp ++ List.flatten s10 ++ aa ++ List.flatten s12 ++ ',' :: (List.flatten s14 ++ cc)), List.flatten sv, ?_, ?_⟩
  · rw [← hjoin]
    simp only [List.flatten_append, List.flatten_cons, hj_s1, hj_s3, hj_s5, hj_s9, hj_s11, hj_r14]
    simp
  · exact ⟨hh, List.flatten s2, ff, List.flatten s4, bb, List.flatten s6, List.flatten s8, pp, List.flatten s10, aa, List.flatten s12, List.flatten s14, cc,
      rfl,
      hH,
      hws_s2.1,
      hws_s2.2 hW1n,
      hF,
      hws_s4.1,
      hws_s4.2 hW2n,
      hB,
      hws_s6.1,
      hws_s8.1,
      hP,
      hws_s10.1,
      hws_s10.2 hW5n,
      hA,
      hws_s12.1,
      hws_s14.1,
      hC⟩

/- ----------------------------------------------------------------
Strip and lowercase transport for phrase containment, and the full
normalization invariance of the title search.
---------------------------------------------------------------- -/

theorem contains_collapse_iff {l : List Char} :
    ContainsPhrase (collapse l) ↔ ContainsPhrase l :=
  ⟨contains_of_contains_collapse, contains_collapse_of_contains⟩

theorem dropWhile_ws_append {x y : List Char} (hy : HeadNonWs y) (hyne : y ≠ []) :
    (x ++ y).dropWhile isSpaceB = x.dropWhile isSpaceB ++ y := by
  induction x with
  | nil =>
    cases y with
    | nil => exact absurd rfl hyne
    | cons c t =>
      unfold HeadNonWs at hy
      simp [List.dropWhile_cons, hy]
  | cons c x ih =>
    rw [List.cons_append, List.dropWhile_cons, List.dropWhile_cons]
    cases hc : isSpaceB c with
    | true => simp [ih]
    | false => simp

theorem takeWhile_ws_isws (l : List Char) : WsRun (l.takeWhile isSpaceB) :=
  fun _ hc => List.mem_takeWhile_imp hc

theorem stripWs_decomp (l : List Char) :
    ∃ p s, WsRun p ∧ WsRun s ∧ l = p ++ stripWs l ++ s := by
  refine ⟨l.takeWhile isSpaceB,
    ((l.dropWhile isSpaceB).reverse.takeWhile isSpaceB).reverse,
    takeWhile_ws_isws l, ?_, ?_⟩
  · intro c hc
    rw [List.mem_reverse] at hc
    exact List.mem_takeWhile_imp hc
  · unfold stripWs
    conv_lhs => rw [← List.takeWhile_append_dropWhile (p := isSpaceB) (l := l)]
    rw [List.append_assoc]
    congr 1
    rw [← List.reverse_append, List.takeWhile_append_dropWhile, List.reverse_reverse]

theorem contains_strip_iff {u : List Char} :
    ContainsPhrase (stripWs u) ↔ ContainsPhrase u := by
  constructor
  · rintro ⟨a, m, v, he, hm⟩
    obtain ⟨p, s, _, _, hu⟩ := stripWs_decomp u
    rw [he] at hu
    exact ⟨p ++ a, m, v ++ s, by rw [hu]; simp, hm⟩
  · rintro ⟨a, m, v, he, hm⟩
    obtain ⟨hHead, hne⟩ := phraseM_headNonWs hm
    obtain ⟨hRevHead, hrne⟩ := phraseM_revHead hm
    subst he
    have hmv : HeadNonWs (m ++ v) := headNonWs_append_left hHead hne
    have hmvne : m ++ v ≠ [] := by
      cases m with
      | nil => exact absurd rfl hne
      | cons c t => simp
    have hmra : HeadNonWs (m.reverse ++ (a.dropWhile isSpaceB).reverse) :=
      headNonWs_append_left hRevHead hrne
    have hmrane : m.reverse ++ (a.dropWhile isSpaceB).reverse ≠ [] := by
      cases hr : m.reverse with
      | nil => exact absurd hr hrne
      | cons c t => simp [hr]
    have h1 : ((a ++ m) ++ v).dropWhile isSpaceB =
        a.dropWhile isSpaceB ++ (m ++ v) := by
      rw [List.append_assoc]
      exact dropWhile_ws_append hmv hmvne
    refine ⟨a.dropWhile isSpaceB, m,
      (v.reverse.dropWhile isSpaceB).reverse, ?_, hm⟩
    unfold stripWs
    rw [h1, List.reverse_append, List.reverse_append, List.append_assoc,
      dropWhile_ws_append hmra hmrane, List.reverse_append, List.reverse_append,
      List.reverse_reverse, List.reverse_reverse]

theorem map_lowerA_idem (x : List Char) :
    (x.map lowerA).map lowerA = x.map lowerA := by
  rw [List.map_map]
  apply List.map_congr_left
  intro a _
  exact lowerA_lowerA a

theorem CIw_pullback {x hh w : List Char} (f : x.map lowerA = hh) (h : CIw hh w) :
    CIw x w := by
  have h2 : hh.map lowerA = w := h
  show x.map lowerA = w
  calc x.map lowerA = (x.map lowerA).map lowerA := (map_lowerA_idem x).symm
    _ = hh.map lowerA := by rw [f]
    _ = w := h2

theorem CIw_push {hh w : List Char} (h : CIw hh w) : CIw (hh.map lowerA) w := by
  show (hh.map lowerA).map lowerA = w
  rw [map_lowerA_idem]
  exact h

theorem wsRun_pullback {x w : List Char} (f : x.map lowerA = w) (h : WsRun w) :
    WsRun x ∧ (w ≠ [] → x ≠ []) := by
  constructor
  · intro c hc
    have h1 : lowerA c ∈ w := by
      rw [← f]
      exact List.mem_map_of_mem lowerA hc
    have h2 := h _ h1
    rw [isSpaceB_lowerA] at h2
    exact h2
  · intro hw hx
    subst hx
    simp at f
    exact hw f

theorem wsRun_push {w : List Char} (h : WsRun w) : WsRun (w.map lowerA) := by
  intro c hc
  rcases List.mem_map.mp hc with ⟨d, hd, hdc⟩
  rw [← hdc, isSpaceB_lowerA]
  exact h d hd

theorem contains_lower_of_contains {u : List Char} (h : ContainsPhrase u) :
    ContainsPhrase (u.map lowerA) := by
  obtain ⟨a, m, v, he, hm⟩ := h
  subst he
  obtain ⟨hh, w1, ff, w2, bb, w3, w4, pp, w5, aa, w6, w7, cc, hmeq, hH, hW1, hW1n, hF,
    hW2, hW2n, hB, hW3, hW4, hP, hW5, hW5n, hA, hW6, hW7, hC⟩ := hm
  subst hmeq
  refine ⟨a.map lowerA,
    hh.map lowerA ++ w1.map lowerA ++ ff.map lowerA ++ w2.map lowerA ++
      bb.map lowerA ++ w3.map lowerA ++ ':' :: (w4.map lowerA ++ pp.map lowerA ++
      w5.map lowerA ++ aa.map lowerA ++ w6.map lowerA ++ ',' ::
      (w7.map lowerA ++ cc.map lowerA)),
    v.map lowerA, ?_, ?_⟩
  · simp [show lowerA ':' = ':' from rfl, show lowerA ',' = ',' from rfl]
  · refine ⟨hh.map lowerA, w1.map lowerA, ff.map lowerA, w2.map lowerA,
      bb.map lowerA, w3.map lowerA, w4.map lowerA, pp.map lowerA, w5.map lowerA,
      aa.map lowerA, w6.map lowerA, w7.map lowerA, cc.map lowerA, rfl,
      CIw_push hH, wsRun_push hW1, ?_, CIw_push hF, wsRun_push hW2, ?_,
      CIw_push hB, wsRun_push hW3, wsRun_push hW4, CIw_push hP, wsRun_push hW5, ?_,
      CIw_push hA, wsRun_push hW6, wsRun_push hW7, CIw_push hC⟩
    · simp [hW1n]
    · simp [hW2n]
    · simp [hW5n]

theorem contains_of_contains_lower {u : List Char} (h : ContainsPhrase (u.map lowerA)) :
    ContainsPhrase u := by
  obtain ⟨a, m, v, hc, hm⟩ := h
  rcases List.map_eq_append_iff.mp hc with ⟨xam, xv, hu_eq, ham, hv⟩
  rcases List.map_eq_append_iff.mp ham with ⟨xa, xm, ham_eq, ha, g0⟩
  obtain ⟨hh, w1, ff, w2, bb, w3, w4, pp, w5, aa, w6, w7, cc, hmeq, hH, hW1, hW1n, hF,
    hW2, hW2n, hB, hW3, hW4, hP, hW5, hW5n, hA, hW6, hW7, hC⟩ := hm
  rw [hmeq] at g0
  simp only [List.append_assoc] at g0
  rcases List.map_eq_append_iff.mp g0 with ⟨x1, y1, q1, p1, g1⟩
  rcases List.map_eq_append_iff.mp g1 with ⟨x2, y2, q2, p2, g2⟩
  rcases List.map_eq_append_iff.mp g2 with ⟨x3, y3, q3, p3, g3⟩
  rcases List.map_eq_append_iff.mp g3 with ⟨x4, y4, q4, p4, g4⟩
  rcases List.map_eq_append_iff.mp g4 with ⟨x5, y5, q5, p5, g5⟩
  rcases List.map_eq_append_iff.mp g5 with ⟨x6, y6, q6, p6, g6⟩
  rcases List.map_eq_cons_iff.mp g6 with ⟨x7, y7, q7, p7, g7⟩
  rcases List.map_eq_append_iff.mp g7 with ⟨x8, y8, q8, p8, g8⟩
  rcases List.map_eq_append_iff.mp g8 with ⟨x9, y9, q9, p9, g9⟩
  rcases List.map_eq_append_iff.mp g9 with ⟨x10, y10, q10, p10, g10⟩
  rcases List.map_eq_append_iff.mp g10 with ⟨x11, y11, q11, p11, g11⟩
  rcases List.map_eq_append_iff.mp g11 with ⟨x12, y12, q12, p12, g12⟩
  rcases List.map_eq_cons_iff.mp g12 with ⟨x13, y13, q13, p13, g13⟩
  rcases List.map_eq_append_iff.mp g13 with ⟨x14, y14, q14, p14, g14⟩
  subst hu_eq
  subst ham_eq
  subst q1
  subst q2
  subst q3
  subst q4
  subst q5
  subst q6
  subst q7
  subst q8
  subst q9
  subst q10
  subst q11
  subst q12
  subst q13
  subst q14
  have hx7 : x7 = ':' := lowerA_eq_colon p7
  subst hx7
  have hx13 : x13 = ',' := lowerA_eq_comma p13
  subst hx13
  refine ⟨xa, x1 ++ x2 ++ x3 ++ x4 ++ x5 ++ x6 ++ ':' :: (x8 ++ x9 ++ x10 ++ x11 ++ x12 ++ ',' :: (x14 ++ y14)), xv, by simp, ?_⟩
  exact ⟨x1, x2, x3, x4, x5, x6, x8, x9, x10, x11, x12, x14, y14,
    rfl,
    CIw_pullback p1 hH,
    (wsRun_pullback p2 hW1).1,
    (wsRun_pullback p2 hW1).2 hW1n,
    CIw_pullback p3 hF,
    (wsRun_pullback p4 hW2).1,
    (wsRun_pullback p4 hW2).2 hW2n,
    CIw_pullback p5 hB,
    (wsRun_pullback p6 hW3).1,
    (wsRun_pullback p8 hW4).1,
    CIw_pullback p9 hP,
    (wsRun_pullback p10 hW5).1,
    (wsRun_pullback p10 hW5).2 hW5n,
    CIw_pullback p11 hA,
    (wsRun_pullback p12 hW6).1,
    (wsRun_pullback p14 hW7).1,
    CIw_pullback g14 hC⟩


theorem contains_lower_iff {u : List Char} :
    ContainsPhrase (u.map lowerA) ↔ ContainsPhrase u :=
  ⟨contains_of_contains_lower, contains_lower_of_contains⟩

theorem contains_normL_iff {l : List Char} :
    ContainsPhrase (normL l) ↔ ContainsPhrase l := by
  unfold normL
  exact contains_lower_iff.trans (contains_strip_iff.trans contains_collapse_iff)

theorem searchList_core_norm (l : List Char) :
    searchList corePhrase (normL l) = searchList corePhrase l := by
  apply bool_eq_of_true_iff
  rw [searchList_iff, searchList_iff]
  exact searchP_core_iff_contains.trans
    (contains_normL_iff.trans searchP_core_iff_contains.symm)

/- ----------------------------------------------------------------
Idempotence of the normalizer.
---------------------------------------------------------------- -/

theorem collapseAux_map_lower (b : Bool) :
    ∀ (l : List Char), collapseAux b (l.map lowerA) = (collapseAux b l).map lowerA := by
  intro l
  induction l generalizing b with
  | nil => rfl
  | cons c t ih =>
    rw [List.map_cons]
    cases hc : isSpaceB c with
    | true =>
      have hlc : isSpaceB (lowerA c) = true := by rw [isSpaceB_lowerA]; exact hc
      cases b with
      | true => simp only [collapseAux, hc, hlc, if_true]; exact ih true
      | false =>
        simp only [collapseAux, hc, hlc, if_true, Bool.false_eq_true, if_false]
        rw [List.map_cons]
        rw [show lowerA ' ' = ' ' from rfl, ih true]
    | false =>
      have hlc : isSpaceB (lowerA c) = false := by rw [isSpaceB_lowerA]; exact hc
      simp only [collapseAux, hc, hlc, Bool.false_eq_true, if_false]
      rw [List.map_cons, ih false]

theorem dropWhile_ws_map_lower (l : List Char) :
    (l.map lowerA).dropWhile isSpaceB = (l.dropWhile isSpaceB).map lowerA := by
  induction l with
  | nil => rfl
  | cons c t ih =>
    rw [List.map_cons, List.dropWhile_cons, List.dropWhile_cons, isSpaceB_lowerA]
    cases hc : isSpaceB c with
    | true => simp [ih]
    | false => simp

theorem stripWs_map_lower (l : List Char) :
    stripWs (l.map lowerA) = (stripWs l).map lowerA := by
  unfold stripWs
  rw [dropWhile_ws_map_lower, ← List.map_reverse, dropWhile_ws_map_lower,
    ← List.map_reverse]

theorem headNonWs_collapseAux_true :
    ∀ (t : List Char), HeadNonWs (collapseAux true t) := by
  intro t
  induction t with
  | nil => trivial
  | cons c t ih =>
    cases hc : isSpaceB c with
    | true => simp only [collapseAux, hc, if_true]; exact ih
    | false =>
      simp only [collapseAux, hc, Bool.false_eq_true, if_false]
      exact hc

theorem collapsed_tail {c : Char} {z : List Char} (h : Collapsed (c :: z)) : Collapsed z := by
  cases z with
  | nil => trivial
  | cons d r => exact h.2

theorem collapsed_cons_space {x : List Char} (hx : HeadNonWs x) (hc : Collapsed x) :
    Collapsed (' ' :: x) := by
  cases x with
  | nil => intro _; rfl
  | cons d r => exact ⟨fun _ => ⟨rfl, hx⟩, hc⟩

theorem collapsed_cons_nonws {c : Char} {x : List Char} (hc : isSpaceB c = false)
    (hx : Collapsed x) : Collapsed (c :: x) := by
  cases x with
  | nil => intro h; exact absurd h (by simp [hc])
  | cons d r => exact ⟨fun h => absurd h (by simp [hc]), hx⟩

theorem collapsed_collapseAux : ∀ (b : Bool) (l : List Char), Collapsed (collapseAux b l) := by
  intro b l
  induction l generalizing b with
  | nil => trivial
  | cons c t ih =>
    cases hc : isSpaceB c with
    | true =>
      cases b with
      | true => simp only [collapseAux, hc, if_true]; exact ih true
      | false =>
        simp only [collapseAux, hc, if_true, Bool.false_eq_true, if_false]
        exact collapsed_cons_space (headNonWs_collapseAux_true t) (ih true)
    | false =>
      simp only [collapseAux, hc, Bool.false_eq_true, if_false]
      exact collapsed_cons_nonws hc (ih false)

theorem collapsed_collapse_eq : ∀ (u : List Char), Collapsed u → collapse u = u
  | [], _ => rfl
  | [c], h => by
    cases hc : isSpaceB c with
    | true =>
      have he : c = ' ' := h hc
      subst he
      rfl
    | false => simp [collapse, collapseAux, hc]
  | c :: d :: r, h => by
    have htail := collapsed_collapse_eq (d :: r) h.2
    cases hc : isSpaceB c with
    | true =>
      obtain ⟨he, hd⟩ := h.1 hc
      subst he
      show collapseAux false (' ' :: d :: r) = ' ' :: d :: r
      have h1 : collapseAux false (' ' :: d :: r) = ' ' :: collapseAux true (d :: r) := by
        rw [show collapseAux false (' ' :: d :: r) =
          ' ' :: collapseAux true (d :: r) from rfl]
      have h2 : collapseAux true (d :: r) = collapseAux false (d :: r) :=
        collapseAux_flag (y := d :: r) hd true false
      have htail2 : collapseAux false (d :: r) = d :: r := htail
      rw [h1, h2, htail2]
    | false =>
      show collapseAux false (c :: d :: r) = c :: d :: r
      simp only [collapseAux, hc, Bool.false_eq_true, if_false]
      exact congrArg (c :: ·) htail

theorem collapsed_append_right : ∀ (x y : List Char), Collapsed (x ++ y) → Collapsed y := by
  intro x
  induction x with
  | nil => intro y h; exact h
  | cons c x ih =>
    intro y h
    exact ih y (collapsed_tail h)

theorem collapsed_append_left : ∀ (x y : List Char), Collapsed (x ++ y) → Collapsed x
  | [], _, _ => trivial
  | [c], y, h => by
    intro hc
    cases y with
    | nil => exact h hc
    | cons d r => exact (h.1 hc).1
  | c :: d :: r, y, h => by
    refine ⟨h.1, collapsed_append_left (d :: r) y h.2⟩

theorem dropWhile_of_headNonWs {l : List Char} (h : HeadNonWs l) :
    l.dropWhile isSpaceB = l := by
  cases l with
  | nil => rfl
  | cons c t =>
    unfold HeadNonWs at h
    simp [List.dropWhile_cons, h]

theorem headNonWs_stripWs (u : List Char) : HeadNonWs (stripWs u) := by
  unfold stripWs
  cases hd : u.dropWhile isSpaceB with
  | nil =>
    simp only [List.reverse_nil, List.dropWhile_nil]
    trivial
  | cons c t =>
    have hc : isSpaceB c = false := by
      have hx := List.head?_dropWhile_not isSpaceB u
      rw [hd] at hx
      simp at hx
      simp [hx]
    rw [show (c :: t).reverse = t.reverse ++ [c] from by simp]
    rw [dropWhile_ws_append (y := [c]) (show HeadNonWs [c] from hc) (by simp)]
    rw [List.reverse_append]
    have hsing : ([c] : List Char).reverse ++ (List.dropWhile isSpaceB t.reverse).reverse =
        c :: (List.dropWhile isSpaceB t.reverse).reverse := by simp
    rw [hsing]
    exact hc

theorem revHeadNonWs_stripWs (u : List Char) : HeadNonWs (stripWs u).reverse := by
  unfold stripWs
  rw [List.reverse_reverse]
  cases hd : (u.dropWhile isSpaceB).reverse.dropWhile isSpaceB with
  | nil => trivial
  | cons c t =>
    have hx := List.head?_dropWhile_not isSpaceB (u.dropWhile isSpaceB).reverse
    rw [hd] at hx
    simp at hx
    show isSpaceB c = false
    simp [hx]

theorem stripWs_idem (u : List Char) : stripWs (stripWs u) = stripWs u := by
  conv_lhs => rw [stripWs]
  rw [dropWhile_of_headNonWs (headNonWs_stripWs u),
    dropWhile_of_headNonWs (revHeadNonWs_stripWs u), List.reverse_reverse]

theorem collapsed_stripWs {u : List Char} (h : Collapsed u) : Collapsed (stripWs u) := by
  obtain ⟨p, s, _, _, hu⟩ := stripWs_decomp u
  rw [hu, List.append_assoc] at h
  exact collapsed_append_left _ _ (collapsed_append_right _ _ h)

theorem normL_idem (l : List Char) : normL (normL l) = normL l := by
  show (stripWs (collapse ((stripWs (collapse l)).map lowerA))).map lowerA =
    (stripWs (collapse l)).map lowerA
  rw [show collapse ((stripWs (collapse l)).map lowerA) =
      (collapse (stripWs (collapse l))).map lowerA from collapseAux_map_lower false _]
  rw [stripWs_map_lower, map_lowerA_idem]
  rw [collapsed_collapse_eq _ (collapsed_stripWs
    (show Collapsed (collapse l) from collapsed_collapseAux false l))]
  rw [stripWs_idem]

theorem title_matches_norm (t : Option String) :
    title_matches (some (norm t)) = title_matches t := by
  cases t with
  | none => rfl
  | some s =>
    show searchList TARGET_TITLE_REGEX (norm (some s)).data =
      searchList TARGET_TITLE_REGEX s.data
    rw [search_target_eq_core, search_target_eq_core]
    show searchList corePhrase (normL s.data) = searchList corePhrase s.data
    exact searchList_core_norm s.data

/- ----------------------------------------------------------------
Claim theorems.
---------------------------------------------------------------- -/

/-- Claim C1, counterexample: the spec says the matcher succeeds
whenever the three phrase parts appear with only whitespace or
punctuation between them, but the text with plain spaces in place of
the colon and comma satisfies the spec contract while
`_title_matches` rejects it: the implementation demands the colon and
the comma specifically. -/
theorem c1_counterexample :
    claimedTitleMatches (some "household food basket per area compared") = true ∧
      title_matches (some "household food basket per area compared") = false := by
  constructor
  · decide
  · decide

/-- Claim C1, amended: the title matcher returns true exactly when,
ignoring case, the text contains household, food, basket separated by
whitespace, then a colon, then per, area, then a comma, then
compared, with optional whitespace around the colon and the comma and
required whitespace between words; the optional numeric section
marker and month-plus-year prefixes are never required. -/
theorem c1_title_contract_amended :
    ∀ t : Option String, title_matches t = amendedTitleMatches t := by
  intro t
  show searchList TARGET_TITLE_REGEX (t.getD "").data =
    searchList amendedTitlePattern (t.getD "").data
  rw [show amendedTitlePattern = corePhrase from rfl]
  exact search_target_eq_core _

/-- Claim C2: the header-signature matcher succeeds exactly when the
set of normalized, non-empty cells of row 0 covers the five expected
column labels; extra columns are allowed, and a table with no rows or
an empty first row is non-matching rather than an error. -/
theorem c2_header_signature :
    (∀ t : Table, headerMatches t = true ↔
      ∃ r0 rest, t = r0 :: rest ∧ ∀ e ∈ EXPECTED_COLUMNS, e ∈ headerNorm r0) ∧
    headerMatches ([] : Table) = false ∧
    (∀ rest : List (List (Option String)), headerMatches ([] :: rest) = false) := by
  refine ⟨fun t => headerMatches_iff, rfl, fun rest => rfl⟩

theorem c2_witness :
    headerMatches [[some "Foods tracked", some "Quantity tracked", some "Joburg",
      some "Durban", some "Cape Town", some "Extra column"]] = true :=
  (c2_header_signature.1 _).mpr
    ⟨[some "Foods tracked", some "Quantity tracked", some "Joburg",
      some "Durban", some "Cape Town", some "Extra column"], [], rfl, by decide⟩

/-- Claim C3: when both passes exhaust without a header match the
locator fails, with the TitleFoundNoMatchingTable error carrying the
Pass-1 title-hit page numbers when that list is non-empty and with
NoTitleNoTable when it is empty; the empty page sequence fails with
NoTitleNoTable rather than crashing. -/
theorem c3_failure_classification :
    (∀ pages : List Page, (pass1 pages 1).2 = none → pass2 pages 1 = none →
      ((titleHits pages 1 = [] → extract_target_table pages = .noTitleNoTable) ∧
       (titleHits pages 1 ≠ [] →
         extract_target_table pages = .titleFoundNoMatchingTable (titleHits pages 1)))) ∧
    extract_target_table [] = .noTitleNoTable := by
  refine ⟨?_, rfl⟩
  intro pages h1 h2
  have hh := pass1_none_hits pages 1 h1
  constructor
  · intro he
    rw [extract_eq_fail h1 h2, hh, he]
    rfl
  · intro hne
    rw [extract_eq_fail h1 h2, hh]
    rw [if_neg]
    intro hem
    exact hne (List.isEmpty_iff.mp hem)

theorem c3_witness :
    (pass1 [Page.mk (some "Household Food Basket") []] 1).2 = none ∧
    pass2 [Page.mk (some "Household Food Basket") []] 1 = none ∧
    titleHits [Page.mk (some "Household Food Basket") []] 1 = [] ∧
    extract_target_table [Page.mk (some "Household Food Basket") []] = .noTitleNoTable :=
  ⟨by decide, by decide, by decide,
    (c3_failure_classification.1 [Page.mk (some "Household Food Basket") []]
      (by decide) (by decide)).1 (by decide)⟩

/-- Claim C4, counterexample: the claim quantifies over every page
sequence in which page 3 matches the title and holds a non-matching
table followed by a matching one, but when pages 1 and 2 have the
same content the locator returns the match from page 1, not page 3. -/
theorem c4_counterexample :
    extract_target_table
      [Page.mk (some "household food basket:per area,compared")
        [[[some "x"]],
         [[some "Foods tracked", some "Quantity tracked", some "Joburg",
           some "Durban", some "Cape Town"]]],
       Page.mk (some "household food basket:per area,compared")
        [[[some "x"]],
         [[some "Foods tracked", some "Quantity tracked", some "Joburg",
           some "Durban", some "Cape Town"]]],
       Page.mk (some "household food basket:per area,compared")
        [[[some "x"]],
         [[some "Foods tracked", some "Quantity tracked", some "Joburg",
           some "Durban", some "Cape Town"]]]]
      = .found [[some "Foods tracked", some "Quantity tracked", some "Joburg",
          some "Durban", some "Cape Town"]] 1 ∧
    LocateResult.found [[some "Foods tracked", some "Quantity tracked", some "Joburg",
        some "Durban", some "Cape Town"]] 1 ≠
      LocateResult.found [[some "Foods tracked", some "Quantity tracked", some "Joburg",
        some "Durban", some "Cape Town"]] 3 ∧
    title_matches (some "household food basket:per area,compared") = true ∧
    headerMatches [[some "x"]] = false ∧
    headerMatches [[some "Foods tracked", some "Quantity tracked", some "Joburg",
      some "Durban", some "Cape Town"]] = true := by
  refine ⟨by decide, by decide, by decide, by decide, by decide⟩

/-- Claim C4, amended: provided no earlier page yields a Pass-1 match,
a page sequence whose page 3 matches the title and holds a
non-matching table followed by a matching one makes the locator
return that second table with page number 3, regardless of what
follows page 3. -/
theorem c4_first_match_wins
    (p1 p2 p3 : Page) (rest : List Page) (t1 t2 : Table) (ts : List Table)
    (h1 : title_matches p1.text = false ∨ p1.tables.find? headerMatches = none)
    (h2 : title_matches p2.text = false ∨ p2.tables.find? headerMatches = none)
    (h3 : title_matches p3.text = true)
    (h4 : p3.tables = t1 :: t2 :: ts)
    (h5 : headerMatches t1 = false)
    (h6 : headerMatches t2 = true) :
    extract_target_table (p1 :: p2 :: p3 :: rest) = .found t2 3 := by
  have hf : p3.tables.find? headerMatches = some t2 := by
    rw [h4]
    simp [List.find?, h5, h6]
  have hres : (pass1 (p1 :: p2 :: p3 :: rest) 1).2 = some (t2, 3) := by
    rw [pass1_skip h1, pass1_skip h2, pass1_found_head h3 hf]
  exact extract_eq_found_of_pass1 hres

theorem c4_witness :
    title_matches (some "household food basket:per area,compared") = true ∧
    headerMatches [[some "x"]] = false ∧
    headerMatches [[some "Foods tracked", some "Quantity tracked", some "Joburg",
      some "Durban", some "Cape Town"]] = true ∧
    extract_target_table
      [Page.mk none [], Page.mk none [],
       Page.mk (some "household food basket:per area,compared")
        [[[some "x"]],
         [[some "Foods tracked", some "Quantity tracked", some "Joburg",
           some "Durban", some "Cape Town"]]]]
      = .found [[some "Foods tracked", some "Quantity tracked", some "Joburg",
          some "Durban", some "Cape Town"]] 3 :=
  ⟨by decide, by decide, by decide,
    c4_first_match_wins _ _ _ [] _ _ []
      (Or.inl (by decide)) (Or.inl (by decide)) (by decide) rfl
      (by decide) (by decide)⟩

/-- Claim C5, counterexample: the claim quantifies over every page
sequence with title hits on pages 1 and 5, no tables on page 1 and a
matching table on page 5, but an intermediate page that also matches
the title and holds a matching table makes the locator stop there, at
page 2 rather than page 5. -/
theorem c5_counterexample :
    extract_target_table
      [Page.mk (some "household food basket:per area,compared") [],
       Page.mk (some "household food basket:per area,compared")
        [[[some "Foods tracked", some "Quantity tracked", some "Joburg",
           some "Durban", some "Cape Town"]]],
       Page.mk none [], Page.mk none [],
       Page.mk (some "household food basket:per area,compared")
        [[[some "Foods tracked", some "Quantity tracked", some "Joburg",
           some "Durban", some "Cape Town"]]]]
      = .found [[some "Foods tracked", some "Quantity tracked", some "Joburg",
          some "Durban", some "Cape Town"]] 2 ∧
    LocateResult.found [[some "Foods tracked", some "Quantity tracked", some "Joburg",
        some "Durban", some "Cape Town"]] 2 ≠
      LocateResult.found [[some "Foods tracked", some "Quantity tracked", some "Joburg",
        some "Durban", some "Cape Town"]] 5 ∧
    title_matches (some "household food basket:per area,compared") = true ∧
    headerMatches [[some "Foods tracked", some "Quantity tracked", some "Joburg",
      some "Durban", some "Cape Town"]] = true := by
  refine ⟨by decide, by decide, by decide, by decide⟩

/-- Claim C5, amended: provided pages 2 through 4 yield no Pass-1
match, a page sequence whose page 1 matches the title with no tables
and whose page 5 matches the title with a header-matching table makes
the locator return Found at page 5: Pass 1 continues past a title hit
without a matching table. -/
theorem c5_pass1_continues
    (p1 p2 p3 p4 p5 : Page) (rest : List Page) (t : Table)
    (h1 : title_matches p1.text = true) (h1t : p1.tables = [])
    (h2 : title_matches p2.text = false ∨ p2.tables.find? headerMatches = none)
    (h3 : title_matches p3.text = false ∨ p3.tables.find? headerMatches = none)
    (h4 : title_matches p4.text = false ∨ p4.tables.find? headerMatches = none)
    (h5 : title_matches p5.text = true)
    (h5f : p5.tables.find? headerMatches = some t) :
    extract_target_table (p1 :: p2 :: p3 :: p4 :: p5 :: rest) = .found t 5 := by
  have h1f : p1.tables.find? headerMatches = none := by rw [h1t]; rfl
  have hres : (pass1 (p1 :: p2 :: p3 :: p4 :: p5 :: rest) 1).2 = some (t, 5) := by
    rw [pass1_skip (Or.inr h1f), pass1_skip h2, pass1_skip h3, pass1_skip h4,
      pass1_found_head h5 h5f]
  exact extract_eq_found_of_pass1 hres

theorem c5_witness :
    title_matches (some "household food basket:per area,compared") = true ∧
    headerMatches [[some "Foods tracked", some "Quantity tracked", some "Joburg",
      some "Durban", some "Cape Town"]] = true ∧
    extract_target_table
      [Page.mk (some "household food basket:per area,compared") [],
       Page.mk none [], Page.mk none [], Page.mk none [],
       Page.mk (some "household food basket:per area,compared")
        [[[some "Foods tracked", some "Quantity tracked", some "Joburg",
           some "Durban", some "Cape Town"]]]]
      = .found [[some "Foods tracked", some "Quantity tracked", some "Joburg",
          some "Durban", some "Cape Town"]] 5 :=
  ⟨by decide, by decide,
    c5_pass1_continues _ _ _ _ _ [] _
      (by decide) rfl (Or.inl (by decide)) (Or.inl (by decide)) (Or.inl (by decide))
      (by decide) (by decide)⟩

/-- Claim C6, counterexample: the claim quantifies over every page
sequence without title matches and with a header-matching table on
page 7, but an earlier header-matching table makes Pass 2 stop there,
at page 3 rather than page 7. -/
theorem c6_counterexample :
    extract_target_table
      [Page.mk none [], Page.mk none [],
       Page.mk none [[[some "Foods tracked", some "Quantity tracked", some "Joburg",
         some "Durban", some "Cape Town"]]],
       Page.mk none [], Page.mk none [], Page.mk none [],
       Page.mk none [[[some "Foods tracked", some "Quantity tracked", some "Joburg",
         some "Durban", some "Cape Town"]]]]
      = .found [[some "Foods tracked", some "Quantity tracked", some "Joburg",
          some "Durban", some "Cape Town"]] 3 ∧
    LocateResult.found [[some "Foods tracked", some "Quantity tracked", some "Joburg",
        some "Durban", some "Cape Town"]] 3 ≠
      LocateResult.found [[some "Foods tracked", some "Quantity tracked", some "Joburg",
        some "Durban", some "Cape Town"]] 7 ∧
    title_matches none = false ∧
    headerMatches [[some "Foods tracked", some "Quantity tracked", some "Joburg",
      some "Durban", some "Cape Town"]] = true := by
  refine ⟨by decide, by decide, by decide, by decide⟩

/-- Claim C6, amended: when no page matches the title and pages 1
through 6 hold no header-matching table, a header-matching table on
page 7 is returned as Found at page 7 through the signature-only
fallback pass, which is entered only after Pass 1 exhausts all
pages. -/
theorem c6_fallback
    (ps : List Page) (p7 : Page) (rest : List Page) (t : Table)
    (hlen : ps.length = 6)
    (hno : ∀ pg ∈ ps ++ p7 :: rest, title_matches pg.text = false)
    (hfind : ∀ pg ∈ ps, pg.tables.find? headerMatches = none)
    (h7 : p7.tables.find? headerMatches = some t) :
    extract_target_table (ps ++ p7 :: rest) = .found t 7 := by
  have hp1 : pass1 (ps ++ p7 :: rest) 1 = ([], none) := pass1_no_titles _ 1 hno
  have hp2 : pass2 (ps ++ p7 :: rest) 1 = some (t, 7) := by
    rw [pass2_skip_many ps (p7 :: rest) 1 hfind, hlen]
    exact pass2_found_head h7
  exact extract_eq_found_of_pass2 (by rw [hp1]) hp2

theorem c6_witness :
    title_matches none = false ∧
    headerMatches [[some "Foods tracked", some "Quantity tracked", some "Joburg",
      some "Durban", some "Cape Town"]] = true ∧
    extract_target_table
      ([Page.mk none [], Page.mk none [], Page.mk none [],
        Page.mk none [], Page.mk none [], Page.mk none []] ++
       Page.mk none [[[some "Foods tracked", some "Quantity tracked", some "Joburg",
         some "Durban", some "Cape Town"]]] :: [])
      = .found [[some "Foods tracked", some "Quantity tracked", some "Joburg",
          some "Durban", some "Cape Town"]] 7 :=
  ⟨by decide, by decide,
    c6_fallback _ _ [] _ rfl (by decide) (by decide) (by decide)⟩

/-- Claim C7: a successful locate carries both the matched table and
the 1-based page number reported for it, and that page number indexes
a page whose candidate-table list contains the returned table. -/
theorem c7_found_carries_page :
    ∀ (pages : List Page) (t : Table) (n : Nat),
      extract_target_table pages = .found t n →
      1 ≤ n ∧ n ≤ pages.length ∧ t ∈ (pages.getD (n - 1) (Page.mk none [])).tables :=
  fun _ _ _ h => (extract_found_spec h).2

theorem c7_witness :
    extract_target_table
      [Page.mk none [[[some "Foods tracked", some "Quantity tracked", some "Joburg",
        some "Durban", some "Cape Town"]]]]
      = .found [[some "Foods tracked", some "Quantity tracked", some "Joburg",
          some "Durban", some "Cape Town"]] 1 ∧
    (1 ≤ 1 ∧ 1 ≤ ([Page.mk none [[[some "Foods tracked", some "Quantity tracked",
      some "Joburg", some "Durban", some "Cape Town"]]]] : List Page).length ∧
      [[some "Foods tracked", some "Quantity tracked", some "Joburg",
        some "Durban", some "Cape Town"]] ∈
        (([Page.mk none [[[some "Foods tracked", some "Quantity tracked", some "Joburg",
          some "Durban", some "Cape Town"]]]] : List Page).getD 0
            (Page.mk none [])).tables) :=
  ⟨by decide, c7_found_carries_page _ _ 1 (by decide)⟩

/-- Claim C8: whenever the locator returns Found, the returned table
has a header row whose normalized non-empty cells cover the five
required column labels. -/
theorem c8_found_header_invariant :
    ∀ (pages : List Page) (t : Table) (n : Nat),
      extract_target_table pages = .found t n →
      ∃ r0 rest, t = r0 :: rest ∧ ∀ e ∈ EXPECTED_COLUMNS, e ∈ headerNorm r0 :=
  fun _ _ _ h => headerMatches_iff.mp (extract_found_spec h).1

theorem c8_witness :
    extract_target_table
      [Page.mk none [], Page.mk none [[[some "Foods  Tracked", some "quantity tracked",
        some "JOBURG", some "Durban", some "Cape Town", some "Average"], [some "d"]]]]
      = .found [[some "Foods  Tracked", some "quantity tracked",
          some "JOBURG", some "Durban", some "Cape Town", some "Average"], [some "d"]] 2 ∧
    (∃ r0 rest, ([[some "Foods  Tracked", some "quantity tracked",
        some "JOBURG", some "Durban", some "Cape Town", some "Average"],
        [some "d"]] : Table) = r0 :: rest ∧
      ∀ e ∈ EXPECTED_COLUMNS, e ∈ headerNorm r0) :=
  ⟨by decide,
    c8_found_header_invariant
      [Page.mk none [], Page.mk none [[[some "Foods  Tracked", some "quantity tracked",
        some "JOBURG", some "Durban", some "Cape Town", some "Average"], [some "d"]]]]
      _ 2 (by decide)⟩

/-- Claim C9: the normalizer is idempotent, pre-normalizing a page
text never changes the title matcher verdict, and null or empty input
normalizes to the empty string without error. -/
theorem c9_normalizer_properties :
    (∀ t : Option String, norm (some (norm t)) = norm t) ∧
    (∀ t : Option String, title_matches (some (norm t)) = title_matches t) ∧
    norm none = "" ∧ norm (some "") = "" := by
  refine ⟨?_, title_matches_norm, rfl, rfl⟩
  intro t
  cases t with
  | none => rfl
  | some s =>
    show String.mk (normL (String.mk (normL s.data)).data) = String.mk (normL s.data)
    rw [show (String.mk (normL s.data)).data = normL s.data from rfl, normL_idem]

/-- Claim C10: the optional section-number and month-plus-year prefix
groups of the title regex are semantically inert under unanchored
search: the matcher gives the same verdict as a matcher built from
the fixed core phrase alone, for every page text. -/
theorem c10_prefix_groups_inert :
    ∀ t : Option String, title_matches t = coreTitleMatches t :=
  fun _ => search_target_eq_core _

end Scraper
